import Mathlib

/-!
# Verification of the Secret Santa allocation engine and payload codec

Shallow embedding of the two core components of the repository:

* `allocateSecretSanta` / `allocateSystematic` (the allocation engine):
  the JavaScript functions are translated directly.  The ambient source of
  randomness (`Math.random`-driven shuffles) is made explicit: the trial
  phase receives a stream `shuffles : Nat → List String` (the shuffle used
  by the k-th trial; `Array.prototype.sort` always returns a permutation of
  its input, which is stated as a hypothesis where needed), and the
  backtracking fallback receives `sigma : Nat → List String → List String`
  (the shuffle applied to the candidate list at the k-th `backtrack` call,
  threaded through the recursion with a counter).

* `encodePayload` / `decodePayload` (the payload codec): JSON
  stringify/parse, `btoa`/`atob` (HTML forgiving base64), and
  `encodeURIComponent`/`decodeURIComponent` are modelled on Lean strings
  (sequences of Unicode scalar values; on the domains exercised by the
  claims - code points below the surrogate range - this coincides with
  JavaScript's UTF-16 code-unit strings).

JavaScript objects used as dictionaries (`allocation[giver] = receiver`)
are modelled as association lists with an update `insertJS` that replaces
the value in place when the key is present and appends otherwise, exactly
as property assignment behaves on a JS object.
-/

namespace Santa

/-- JS dictionary (`Record<string, string>`) as an association list. -/
abbrev Alloc := List (String × String)

/-- `m[k] = v` on a JS object: overwrite in place if the key exists,
otherwise append the new binding. -/
def insertJS (m : Alloc) (k v : String) : Alloc :=
  if m.any (fun p => p.1 = k) then
    m.map (fun p => if p.1 = k then (k, v) else p)
  else
    m ++ [(k, v)]

/-- Fold a list of bindings into a JS object by repeated assignment. -/
def insertAll (m : Alloc) (prs : List (String × String)) : Alloc :=
  prs.foldl (fun a pr => insertJS a pr.1 pr.2) m

/-- The validation loop of one randomized trial in `allocateSecretSanta`:
walk the (giver, receiver) pairs, rejecting on a self-pairing
(`giver === receiver`) or on an excluded receiver, and otherwise
performing `allocation[giver] = receiver`. -/
def trialLoop (excl : String → List String) :
    List (String × String) → Alloc → Option Alloc
  | [], acc => some acc
  | (g, r) :: rest, acc =>
    if g = r then none
    else if r ∈ excl g then none
    else trialLoop excl rest (insertJS acc g r)

/-- One randomized trial: pair the givers with the shuffled receiver
sequence element-wise and run the validation loop. -/
def tryShuffle (participants : List String) (excl : String → List String)
    (shuffled : List String) : Option Alloc :=
  trialLoop excl (participants.zip shuffled) []

/-- `const maxAttempts = 1000`. -/
def maxAttempts : Nat := 1000

/-- The `while (attempts < maxAttempts)` loop: the k-th trial uses the
k-th shuffle of the stream; the first valid candidate is returned. -/
def trialPhase (participants : List String) (excl : String → List String)
    (shuffles : Nat → List String) : Nat → Nat → Option Alloc
  | _, 0 => none
  | attempt, n + 1 =>
    match tryShuffle participants excl (shuffles attempt) with
    | some a => some a
    | none => trialPhase participants excl shuffles (attempt + 1) n

/-- The `for (const receiver of candidates)` loop inside `backtrack`:
try each candidate receiver in order, recursing via the continuation `k`
(the `backtrack (index + 1)` call, which threads the shuffle counter). -/
def btGo (g : String)
    (k : Nat → Alloc → List String → Option Alloc × Nat) :
    List String → Nat → Alloc → List String → Option Alloc × Nat
  | [], ctr, _, _ => (none, ctr)
  | r :: rs, ctr, alloc, used =>
    match k ctr (insertJS alloc g r) (used ++ [r]) with
    | (some a, c2) => (some a, c2)
    | (none, c2) => btGo g k rs c2 alloc used

/-- The recursive `backtrack` of `allocateSystematic`, with the list of
still-unassigned givers in place of `index`, the shuffle-call counter
threaded explicitly, and the mutated `allocation` / `used` structures
passed functionally (the JS undo on backtrack is exactly re-using the
caller's values). -/
def backtrack (ps : List String) (excl : String → List String)
    (sigma : Nat → List String → List String) :
    List String → Nat → Alloc → List String → Option Alloc × Nat
  | [], ctr, alloc, _ => (some alloc, ctr)
  | g :: rest, ctr, alloc, used =>
    btGo g (backtrack ps excl sigma rest)
      (sigma ctr (ps.filter (fun p => decide (p ∉ g :: excl g ∧ p ∉ used))))
      (ctr + 1) alloc used

/-- `allocateSystematic`: run the backtracking search from an empty
allocation and empty used set. -/
def allocateSystematic (ps : List String) (excl : String → List String)
    (sigma : Nat → List String → List String) : Option Alloc :=
  (backtrack ps excl sigma ps 0 [] []).1

/-- `allocateSecretSanta`: guard, randomized trial phase (capped at
`maxAttempts`), then the systematic fallback. -/
def allocateSecretSanta (ps : List String) (excl : String → List String)
    (shuffles : Nat → List String)
    (sigma : Nat → List String → List String) : Option Alloc :=
  if ps.length < 2 then none
  else
    match trialPhase ps excl shuffles 0 maxAttempts with
    | some a => some a
    | none => allocateSystematic ps excl sigma

/-! ## Basic lemmas about the JS-object model -/

theorem insertAll_cons (m : Alloc) (pr : String × String)
    (prs : List (String × String)) :
    insertAll m (pr :: prs) = insertAll (insertJS m pr.1 pr.2) prs := rfl

theorem insertJS_fresh (m : Alloc) (k v : String)
    (h : ∀ q ∈ m, q.1 ≠ k) : insertJS m k v = m ++ [(k, v)] := by
  unfold insertJS
  rw [if_neg]
  simp only [List.any_eq_true, decide_eq_true_eq, not_exists, not_and]
  intro q hq
  exact h q hq

/-- Assigning a list of bindings with pairwise-distinct keys, all fresh
for the accumulator, is plain concatenation. -/
theorem insertAll_fresh :
    ∀ (prs : List (String × String)) (m : Alloc),
      (prs.map Prod.fst).Nodup → (∀ pr ∈ prs, ∀ q ∈ m, q.1 ≠ pr.1) →
      insertAll m prs = m ++ prs := by
  intro prs
  induction prs with
  | nil => intro m _ _; simp [insertAll]
  | cons pr rest ih =>
    intro m hnd hfresh
    rw [insertAll_cons, insertJS_fresh m pr.1 pr.2
      (fun q hq => hfresh pr (List.mem_cons_self pr rest) q hq)]
    rw [ih (m ++ [(pr.1, pr.2)]) (by simpa using hnd.of_cons)]
    · simp
    · intro pr2 hpr2 q hq
      rcases List.mem_append.mp hq with hq | hq
      · exact hfresh pr2 (List.mem_cons_of_mem pr hpr2) q hq
      · simp only [List.mem_singleton] at hq
        subst hq
        simp only [List.map_cons, List.nodup_cons] at hnd
        intro hcontra
        exact hnd.1 (hcontra ▸ List.mem_map_of_mem Prod.fst hpr2)

/-! ## Trial phase lemmas -/

/-- Soundness of one trial: a returned allocation is the element-wise
pairing, every pair avoiding self-gifts and exclusions. -/
theorem trialLoop_sound (excl : String → List String) :
    ∀ (prs : List (String × String)) (acc : Alloc) (a : Alloc),
      trialLoop excl prs acc = some a →
      a = insertAll acc prs ∧
        ∀ pr ∈ prs, pr.1 ≠ pr.2 ∧ pr.2 ∉ excl pr.1 := by
  intro prs
  induction prs with
  | nil => intro acc a h; simp_all [trialLoop, insertAll]
  | cons pr rest ih =>
    intro acc a h
    obtain ⟨g, r⟩ := pr
    unfold trialLoop at h
    split at h
    · exact absurd h (by simp)
    · split at h
      · exact absurd h (by simp)
      · obtain ⟨ha, hvalid⟩ := ih (insertJS acc g r) a h
        refine ⟨by simpa [insertAll_cons] using ha, ?_⟩
        intro pr2 hpr2
        rcases List.mem_cons.mp hpr2 with hpr2 | hpr2
        · subst hpr2; exact ⟨by assumption, by assumption⟩
        · exact hvalid pr2 hpr2

/-- A trial whose pairing contains a self-gift or an excluded pair is
rejected. -/
theorem trialLoop_fails (excl : String → List String) :
    ∀ (prs : List (String × String)) (acc : Alloc),
      (∃ pr ∈ prs, pr.1 = pr.2 ∨ pr.2 ∈ excl pr.1) →
      trialLoop excl prs acc = none := by
  intro prs
  induction prs with
  | nil => intro acc h; simp at h
  | cons pr rest ih =>
    intro acc ⟨bad, hbadmem, hbad⟩
    obtain ⟨g, r⟩ := pr
    unfold trialLoop
    split
    · rfl
    · split
      · rfl
      · apply ih
        rcases List.mem_cons.mp hbadmem with hbadmem | hbadmem
        · subst hbadmem
          rcases hbad with hbad | hbad
          · exact absurd hbad (by assumption)
          · exact absurd hbad (by assumption)
        · exact ⟨bad, hbadmem, hbad⟩

/-- A successful trial phase comes from some successful trial. -/
theorem trialPhase_some (ps : List String) (excl : String → List String)
    (shuffles : Nat → List String) :
    ∀ (n attempt : Nat) (a : Alloc),
      trialPhase ps excl shuffles attempt n = some a →
      ∃ k, tryShuffle ps excl (shuffles k) = some a := by
  intro n
  induction n with
  | zero => intro attempt a h; simp [trialPhase] at h
  | succ m ih =>
    intro attempt a h
    unfold trialPhase at h
    split at h
    · exact ⟨attempt, by simp_all⟩
    · exact ih (attempt + 1) a h

/-- If every trial is rejected, the whole phase is rejected. -/
theorem trialPhase_none (ps : List String) (excl : String → List String)
    (shuffles : Nat → List String)
    (h : ∀ k, tryShuffle ps excl (shuffles k) = none) :
    ∀ (n attempt : Nat), trialPhase ps excl shuffles attempt n = none := by
  intro n
  induction n with
  | zero => intro attempt; rfl
  | succ m ih =>
    intro attempt
    unfold trialPhase
    rw [h attempt]
    exact ih (attempt + 1)

/-- The trial phase consults only the shuffles of the attempts it runs. -/
theorem trialPhase_congr (ps : List String) (excl : String → List String)
    (shuffles shuffles2 : Nat → List String) :
    ∀ (n attempt : Nat),
      (∀ k, attempt ≤ k → k < attempt + n → shuffles k = shuffles2 k) →
      trialPhase ps excl shuffles attempt n =
        trialPhase ps excl shuffles2 attempt n := by
  intro n
  induction n with
  | zero => intro attempt _; rfl
  | succ m ih =>
    intro attempt hagree
    unfold trialPhase
    rw [hagree attempt (le_refl _) (by omega)]
    cases tryShuffle ps excl (shuffles2 attempt) with
    | some a => rfl
    | none =>
      simp only
      exact ih (attempt + 1) (fun k hk1 hk2 => hagree k (by omega) (by omega))

/-! ## Backtracking lemmas -/

/-- A successful candidate loop succeeded through one of its candidates. -/
theorem btGo_sound (g : String)
    (k : Nat → Alloc → List String → Option Alloc × Nat) :
    ∀ (cands : List String) (ctr : Nat) (alloc : Alloc) (used : List String)
      (a : Alloc) (c2 : Nat),
      btGo g k cands ctr alloc used = (some a, c2) →
      ∃ r ∈ cands, ∃ c c3,
        k c (insertJS alloc g r) (used ++ [r]) = (some a, c3) := by
  intro cands
  induction cands with
  | nil => intro ctr alloc used a c2 h; simp [btGo] at h
  | cons x xs ih =>
    intro ctr alloc used a c2 h
    unfold btGo at h
    rcases hk : k ctr (insertJS alloc g x) (used ++ [x]) with ⟨res, c3⟩
    rw [hk] at h
    cases res with
    | some a2 =>
      simp only [Prod.mk.injEq, Option.some.injEq] at h
      exact ⟨x, List.mem_cons_self x xs, ctr, c3, by rw [hk, h.1]⟩
    | none =>
      obtain ⟨r, hrmem, c, c4, hk2⟩ := ih c3 alloc used a c2 h
      exact ⟨r, List.mem_cons_of_mem x hrmem, c, c4, hk2⟩

/-- Soundness of the backtracking search: a returned allocation assigns
each remaining giver a receiver; receivers are pairwise distinct, drawn
from the participant list, not previously used, and each pair avoids
self-gifts and exclusions. -/
theorem backtrack_sound (ps : List String) (excl : String → List String)
    (sigma : Nat → List String → List String)
    (hsigma : ∀ n l, (sigma n l).Perm l) :
    ∀ (givers : List String) (ctr : Nat) (alloc : Alloc) (used : List String)
      (a : Alloc) (c2 : Nat),
      backtrack ps excl sigma givers ctr alloc used = (some a, c2) →
      ∃ recvs : List String,
        recvs.length = givers.length ∧ recvs.Nodup ∧
        (∀ r ∈ recvs, r ∈ ps ∧ r ∉ used) ∧
        (∀ pr ∈ givers.zip recvs, pr.1 ≠ pr.2 ∧ pr.2 ∉ excl pr.1) ∧
        a = insertAll alloc (givers.zip recvs) := by
  intro givers
  induction givers with
  | nil =>
    intro ctr alloc used a c2 h
    unfold backtrack at h
    simp only [Prod.mk.injEq, Option.some.injEq] at h
    exact ⟨[], rfl, List.nodup_nil, by simp, by simp, by simp [insertAll, h.1]⟩
  | cons g rest ih =>
    intro ctr alloc used a c2 h
    unfold backtrack at h
    obtain ⟨r, hrmem, c, c3, hk⟩ := btGo_sound g _ _ _ _ _ _ _ h
    have hrfilter :
        r ∈ ps.filter (fun p => decide (p ∉ g :: excl g ∧ p ∉ used)) :=
      (hsigma ctr _).mem_iff.mp hrmem
    rw [List.mem_filter, decide_eq_true_eq] at hrfilter
    obtain ⟨hrps, hrnotex, hrnotused⟩ := hrfilter
    rw [List.mem_cons, not_or] at hrnotex
    obtain ⟨recvs, hlen, hnd, hmem, hpairs, ha⟩ := ih c _ _ a c3 hk
    refine ⟨r :: recvs, by simp [hlen], ?_, ?_, ?_, ?_⟩
    · rw [List.nodup_cons]
      refine ⟨fun hmem2 => ?_, hnd⟩
      have := (hmem r hmem2).2
      simp at this
    · intro x hx
      rcases List.mem_cons.mp hx with hx | hx
      · subst hx; exact ⟨hrps, hrnotused⟩
      · have hx2 := hmem x hx
        exact ⟨hx2.1, fun hxu => hx2.2 (List.mem_append_left _ hxu)⟩
    · intro pr hpr
      rw [List.zip_cons_cons, List.mem_cons] at hpr
      rcases hpr with hpr | hpr
      · subst hpr
        exact ⟨fun heq => hrnotex.1 heq.symm, hrnotex.2⟩
      · exact hpairs pr hpr
    · rw [List.zip_cons_cons, insertAll_cons]
      exact ha

/-- Completeness of the candidate loop: if some candidate leads to a
successful recursive call regardless of the shuffle counter, the loop
succeeds. -/
theorem btGo_complete (g : String)
    (k : Nat → Alloc → List String → Option Alloc × Nat) :
    ∀ (cands : List String) (ctr : Nat) (alloc : Alloc) (used : List String),
      (∃ r ∈ cands,
        ∀ c, ((k c (insertJS alloc g r) (used ++ [r])).1).isSome) →
      ((btGo g k cands ctr alloc used).1).isSome := by
  intro cands
  induction cands with
  | nil => intro ctr alloc used hex; simp at hex
  | cons x xs ih =>
    intro ctr alloc used hex
    obtain ⟨r, hrmem, hrk⟩ := hex
    unfold btGo
    rcases hk : k ctr (insertJS alloc g x) (used ++ [x]) with ⟨res, c3⟩
    cases res with
    | some a => simp
    | none =>
      simp only
      apply ih c3 alloc used
      rcases List.mem_cons.mp hrmem with hr | hr
      · subst hr
        have := hrk ctr
        rw [hk] at this
        simp at this
      · exact ⟨r, hr, hrk⟩

/-- Completeness of the backtracking search: if the remaining givers
admit any valid completion, the search succeeds (for every shuffle
behaviour and every counter). -/
theorem backtrack_complete (ps : List String) (excl : String → List String)
    (sigma : Nat → List String → List String)
    (hsigma : ∀ n l, (sigma n l).Perm l) :
    ∀ (givers used recvs : List String),
      recvs.length = givers.length → recvs.Nodup →
      (∀ r ∈ recvs, r ∈ ps ∧ r ∉ used) →
      (∀ pr ∈ givers.zip recvs, pr.1 ≠ pr.2 ∧ pr.2 ∉ excl pr.1) →
      ∀ (ctr : Nat) (alloc : Alloc),
        ((backtrack ps excl sigma givers ctr alloc used).1).isSome := by
  intro givers
  induction givers with
  | nil => intro used recvs _ _ _ _ ctr alloc; simp [backtrack]
  | cons g rest ih =>
    intro used recvs hlen hnd hmem hpairs ctr alloc
    cases recvs with
    | nil => simp at hlen
    | cons r rs =>
      unfold backtrack
      apply btGo_complete
      have hgr := hpairs (g, r) (by rw [List.zip_cons_cons]; exact List.mem_cons_self _ _)
      have hr := hmem r (List.mem_cons_self r rs)
      refine ⟨r, ?_, ?_⟩
      · apply (hsigma ctr _).mem_iff.mpr
        rw [List.mem_filter, decide_eq_true_eq]
        refine ⟨hr.1, ?_, hr.2⟩
        rw [List.mem_cons, not_or]
        exact ⟨fun heq => hgr.1 heq.symm, hgr.2⟩
      · intro c
        apply ih (used ++ [r]) rs (by simpa using hlen) hnd.of_cons
        · intro x hx
          have hx2 := hmem x (List.mem_cons_of_mem r hx)
          refine ⟨hx2.1, ?_⟩
          rw [List.mem_append, List.mem_singleton, not_or]
          exact ⟨hx2.2, fun heq => (List.nodup_cons.mp hnd).1 (heq ▸ hx)⟩
        · intro pr hpr
          exact hpairs pr
            (by rw [List.zip_cons_cons]; exact List.mem_cons_of_mem _ hpr)

/-! ## Engine-level soundness -/

/-- Soundness of the whole engine on duplicate-free participant lists:
any returned allocation lists every participant exactly once as a giver
(in input order), its receivers are a permutation of the participants,
and every pair avoids self-gifts and exclusions. -/
theorem allocateSecretSanta_sound (ps : List String)
    (excl : String → List String) (shuffles : Nat → List String)
    (sigma : Nat → List String → List String)
    (hnd : ps.Nodup) (hsh : ∀ k, (shuffles k).Perm ps)
    (hsigma : ∀ n l, (sigma n l).Perm l) (a : Alloc)
    (h : allocateSecretSanta ps excl shuffles sigma = some a) :
    a.map Prod.fst = ps ∧ (a.map Prod.snd).Perm ps ∧
      ∀ pr ∈ a, pr.1 ≠ pr.2 ∧ pr.2 ∉ excl pr.1 := by
  unfold allocateSecretSanta at h
  split at h
  · exact absurd h (by simp)
  · rcases htp : trialPhase ps excl shuffles 0 maxAttempts with _ | a0
    · rw [htp] at h
      simp only at h
      rcases hbt : backtrack ps excl sigma ps 0 [] [] with ⟨res, c2⟩
      unfold allocateSystematic at h
      rw [hbt] at h
      cases res with
      | none => simp at h
      | some a1 =>
        simp only [Option.some.injEq] at h
        subst h
        obtain ⟨recvs, hlen, hndr, hmemr, hpairs, ha⟩ :=
          backtrack_sound ps excl sigma hsigma ps 0 [] [] a1 c2 hbt
        have hkeys : (ps.zip recvs).map Prod.fst = ps :=
          List.map_fst_zip ps recvs (by omega)
        have hall : insertAll [] (ps.zip recvs) = ps.zip recvs := by
          rw [insertAll_fresh _ _ (by rw [hkeys]; exact hnd) (by simp), List.nil_append]
        rw [ha, hall]
        have hsnd : (ps.zip recvs).map Prod.snd = recvs :=
          List.map_snd_zip ps recvs (by omega)
        refine ⟨hkeys, ?_, hpairs⟩
        rw [hsnd]
        exact (List.subperm_of_subset hndr fun r hr =>
          (hmemr r hr).1).perm_of_length_le (by omega)
    · rw [htp] at h
      simp only [Option.some.injEq] at h
      subst h
      obtain ⟨k, hk⟩ := trialPhase_some ps excl shuffles maxAttempts 0 a0 htp
      obtain ⟨ha, hpairs⟩ := trialLoop_sound excl (ps.zip (shuffles k)) [] a0 hk
      have hlensh : (shuffles k).length = ps.length := (hsh k).length_eq
      have hkeys : (ps.zip (shuffles k)).map Prod.fst = ps :=
        List.map_fst_zip ps (shuffles k) (by omega)
      have hall :
          insertAll [] (ps.zip (shuffles k)) = ps.zip (shuffles k) := by
        rw [insertAll_fresh _ _ (by rw [hkeys]; exact hnd) (by simp), List.nil_append]
      rw [ha, hall]
      have hsnd : (ps.zip (shuffles k)).map Prod.snd = shuffles k :=
        List.map_snd_zip ps (shuffles k) (by omega)
      exact ⟨hkeys, by rw [hsnd]; exact hsh k, hpairs⟩

/-- A successful systematic search (no duplicate-freeness assumed) yields
a receiver sequence that is a permutation of the participants, element-wise
valid against the giver sequence. -/
theorem allocateSystematic_some_perm (ps : List String)
    (excl : String → List String)
    (sigma : Nat → List String → List String)
    (hsigma : ∀ n l, (sigma n l).Perm l) (a : Alloc)
    (h : allocateSystematic ps excl sigma = some a) :
    ∃ recvs : List String, recvs.Perm ps ∧
      ∀ pr ∈ ps.zip recvs, pr.1 ≠ pr.2 ∧ pr.2 ∉ excl pr.1 := by
  unfold allocateSystematic at h
  rcases hbt : backtrack ps excl sigma ps 0 [] [] with ⟨res, c2⟩
  rw [hbt] at h
  cases res with
  | none => simp at h
  | some a1 =>
    obtain ⟨recvs, hlen, hndr, hmemr, hpairs, _⟩ :=
      backtrack_sound ps excl sigma hsigma ps 0 [] [] a1 c2 hbt
    exact ⟨recvs,
      (List.subperm_of_subset hndr fun r hr =>
        (hmemr r hr).1).perm_of_length_le (by omega), hpairs⟩

/-- A permutation of a two-element list is one of its two arrangements. -/
theorem perm_pair_cases {l : List String} {a b : String}
    (h : l.Perm [a, b]) : l = [a, b] ∨ l = [b, a] := by
  have hlen := h.length_eq
  rcases l with _ | ⟨x, _ | ⟨y, _ | ⟨z, t⟩⟩⟩
  · simp at hlen
  · simp at hlen
  · have hx : x ∈ [a, b] := h.mem_iff.mp (List.mem_cons_self x [y])
    rw [List.mem_cons, List.mem_singleton] at hx
    rcases hx with hx | hx
    · left
      rw [hx] at h ⊢
      rw [List.perm_singleton.mp h.cons_inv]
    · right
      rw [hx] at h ⊢
      rw [List.perm_singleton.mp
        ((h.trans (List.Perm.swap b a [])).cons_inv)]
  · simp at hlen

/-- Pairing a duplicate-free list of length at least 2 with its one-step
rotation never pairs an element with itself. -/
theorem zip_rotate_ne (ps : List String) (hnd : ps.Nodup)
    (hlen : 2 ≤ ps.length) :
    ∀ pr ∈ ps.zip (ps.rotate 1), pr.1 ≠ pr.2 := by
  intro pr hpr
  obtain ⟨i, hi, hget⟩ := List.mem_iff_getElem.mp hpr
  have hlenzip : (ps.zip (ps.rotate 1)).length = ps.length := by
    rw [List.length_zip, List.length_rotate, Nat.min_self]
  have hilen : i < ps.length := hlenzip ▸ hi
  have hirot : i < (ps.rotate 1).length := by
    rw [List.length_rotate]; exact hilen
  have h1 : pr.1 = ps[i] := by rw [← hget, List.getElem_zip]
  have h2 : pr.2 = (ps.rotate 1)[i] := by rw [← hget, List.getElem_zip]
  rw [h1, h2, List.getElem_rotate]
  intro heq
  rw [hnd.getElem_inj_iff] at heq
  rcases Nat.lt_or_ge (i + 1) ps.length with hlt | hge
  · rw [Nat.mod_eq_of_lt hlt] at heq
    omega
  · have hieq : i + 1 = ps.length := by omega
    rw [hieq, Nat.mod_self] at heq
    omega

/-- With no exclusions and at least two distinct participants, the
backtracking fallback always succeeds (a one-step rotation is a valid
completion). -/
theorem allocateSystematic_noExcl_isSome (ps : List String)
    (sigma : Nat → List String → List String)
    (hnd : ps.Nodup) (hlen : 2 ≤ ps.length)
    (hsigma : ∀ n l, (sigma n l).Perm l) :
    (allocateSystematic ps (fun _ => []) sigma).isSome := by
  unfold allocateSystematic
  apply backtrack_complete ps (fun _ => []) sigma hsigma ps [] (ps.rotate 1)
  · exact List.length_rotate ps 1
  · exact ((List.rotate_perm ps 1).nodup_iff).mpr hnd
  · intro r hr
    exact ⟨(List.rotate_perm ps 1).mem_iff.mp hr, List.not_mem_nil r⟩
  · intro pr hpr
    exact ⟨zip_rotate_ne ps hnd hlen pr hpr, List.not_mem_nil _⟩

/-- With no exclusions and at least two distinct participants, the whole
engine returns an allocation. -/
theorem allocateSecretSanta_noExcl_some (ps : List String)
    (shuffles : Nat → List String)
    (sigma : Nat → List String → List String)
    (hnd : ps.Nodup) (hlen : 2 ≤ ps.length)
    (hsigma : ∀ n l, (sigma n l).Perm l) :
    ∃ a, allocateSecretSanta ps (fun _ => []) shuffles sigma = some a := by
  unfold allocateSecretSanta
  rw [if_neg (by omega)]
  rcases htp : trialPhase ps (fun _ => []) shuffles 0 maxAttempts with _ | a
  · have := allocateSystematic_noExcl_isSome ps sigma hnd hlen hsigma
    rcases hsys : allocateSystematic ps (fun _ => []) sigma with _ | a
    · rw [hsys] at this; simp at this
    · exact ⟨a, by simp [hsys]⟩
  · exact ⟨a, by simp⟩

/-! ## Claims about the allocation engine -/

/-- C1 (amended: the participant names are assumed pairwise distinct, the
spec's stated precondition; with duplicate names the trial phase can
return a non-bijective mapping, see the counterexample).  For every
duplicate-free participants list and every exclusions mapping, and every
behaviour of the randomness source (each trial shuffle a permutation of
the participants, each candidate shuffle a permutation of its input), if
`allocateSecretSanta` returns a mapping then every participant appears
exactly once as a giver (the key list is exactly the participants list)
and exactly once as a receiver (the value list is a permutation of the
participants), no giver is mapped to itself, and no giver is mapped to a
name in that giver's exclusion set. -/
theorem claim1_allocation_bijection (ps : List String)
    (excl : String → List String) (shuffles : Nat → List String)
    (sigma : Nat → List String → List String)
    (hnd : ps.Nodup) (hsh : ∀ k, (shuffles k).Perm ps)
    (hsigma : ∀ n l, (sigma n l).Perm l) (a : Alloc)
    (h : allocateSecretSanta ps excl shuffles sigma = some a) :
    a.map Prod.fst = ps ∧ (a.map Prod.snd).Perm ps ∧
      ∀ pr ∈ a, pr.1 ≠ pr.2 ∧ pr.2 ∉ excl pr.1 :=
  allocateSecretSanta_sound ps excl shuffles sigma hnd hsh hsigma a h

/-- Witness for C1: a concrete run on ALICE/BOB/CAROL with a rotation
shuffle returns the rotation allocation, and the theorem's conclusions
hold for it. -/
theorem claim1_allocation_bijection_witness :
    allocateSecretSanta ["ALICE", "BOB", "CAROL"] (fun _ => [])
        (fun _ => ["BOB", "CAROL", "ALICE"]) (fun _ l => l) =
      some [("ALICE", "BOB"), ("BOB", "CAROL"), ("CAROL", "ALICE")] ∧
    ([("ALICE", "BOB"), ("BOB", "CAROL"), ("CAROL", "ALICE")] : Alloc).map
        Prod.fst = ["ALICE", "BOB", "CAROL"] ∧
    (([("ALICE", "BOB"), ("BOB", "CAROL"), ("CAROL", "ALICE")] : Alloc).map
        Prod.snd).Perm ["ALICE", "BOB", "CAROL"] ∧
    ∀ pr ∈ ([("ALICE", "BOB"), ("BOB", "CAROL"), ("CAROL", "ALICE")] : Alloc),
      pr.1 ≠ pr.2 ∧ pr.2 ∉ (fun _ => ([] : List String)) pr.1 := by
  refine ⟨by decide, ?_⟩
  exact claim1_allocation_bijection ["ALICE", "BOB", "CAROL"] (fun _ => [])
    (fun _ => ["BOB", "CAROL", "ALICE"]) (fun _ l => l) (by decide)
    (fun _ => (by decide :
      (["BOB", "CAROL", "ALICE"] : List String).Perm ["ALICE", "BOB", "CAROL"]))
    (fun n l => List.Perm.refl l) _ (by decide)

/-- Counterexample for C1 as stated: with a duplicated participant name
(no uniqueness assumed), a legitimate run of the trial phase — its shuffle
is a genuine permutation of the input list — returns a mapping in which
the participant "B" never appears as a receiver, so the result is not a
bijection on the participant set. -/
theorem claim1_counterexample :
    (["B", "C", "A", "A"] : List String).Perm ["A", "A", "B", "C"] ∧
    allocateSecretSanta ["A", "A", "B", "C"] (fun _ => [])
        (fun _ => ["B", "C", "A", "A"]) (fun _ l => l) =
      some [("A", "C"), ("B", "A"), ("C", "A")] ∧
    "B" ∈ (["A", "A", "B", "C"] : List String) ∧
    (([("A", "C"), ("B", "A"), ("C", "A")] : Alloc).map Prod.snd).count "B"
      = 0 := by
  refine ⟨by decide, by decide, by decide, by decide⟩

/-- The concrete mutual-exclusion mapping {"A": ["B"], "B": ["A"]}. -/
def exclAB : String → List String :=
  fun g => if g = "A" then ["B"] else if g = "B" then ["A"] else []

/-- C3: whenever the constraints are unsatisfiable — no permutation of
the participant sequence pairs every giver with a receiver distinct from
the giver and outside the giver's exclusion set — the engine returns the
infeasibility signal `none`, for every behaviour of the randomness
source.  (The model is a total function, so no exception can escape.) -/
theorem claim3_infeasible_none (ps : List String)
    (excl : String → List String) (shuffles : Nat → List String)
    (sigma : Nat → List String → List String)
    (hsh : ∀ k, (shuffles k).Perm ps) (hsigma : ∀ n l, (sigma n l).Perm l)
    (hinf : ∀ recvs : List String, recvs.Perm ps →
      ∃ pr ∈ ps.zip recvs, pr.1 = pr.2 ∨ pr.2 ∈ excl pr.1) :
    allocateSecretSanta ps excl shuffles sigma = none := by
  unfold allocateSecretSanta
  split
  · rfl
  · rw [trialPhase_none ps excl shuffles
      (fun k => trialLoop_fails excl _ _ (hinf (shuffles k) (hsh k)))
      maxAttempts 0]
    simp only
    rcases hsys : allocateSystematic ps excl sigma with _ | a
    · rfl
    · obtain ⟨recvs, hperm, hpairs⟩ :=
        allocateSystematic_some_perm ps excl sigma hsigma a hsys
      obtain ⟨pr, hprmem, hbad⟩ := hinf recvs hperm
      have hgood := hpairs pr hprmem
      rcases hbad with hbad | hbad
      · exact absurd hbad hgood.1
      · exact absurd hbad hgood.2

/-- Witness for C3: the spec's concrete scenario — participants
["A", "B"] with A excluding B and B excluding A — is infeasible, and the
engine returns `none` on it. -/
theorem claim3_infeasible_none_witness :
    (∀ recvs : List String, recvs.Perm ["A", "B"] →
      ∃ pr ∈ (["A", "B"] : List String).zip recvs,
        pr.1 = pr.2 ∨ pr.2 ∈ exclAB pr.1) ∧
    allocateSecretSanta ["A", "B"] exclAB (fun _ => ["A", "B"])
      (fun _ l => l) = none := by
  have hinf : ∀ recvs : List String, recvs.Perm ["A", "B"] →
      ∃ pr ∈ (["A", "B"] : List String).zip recvs,
        pr.1 = pr.2 ∨ pr.2 ∈ exclAB pr.1 := by
    intro recvs hperm
    rcases perm_pair_cases hperm with h | h <;> subst h
    · exact ⟨("A", "A"), by decide, Or.inl rfl⟩
    · exact ⟨("A", "B"), by decide, Or.inr (by decide)⟩
  exact ⟨hinf, claim3_infeasible_none ["A", "B"] exclAB
    (fun _ => ["A", "B"]) (fun _ l => l)
    (fun _ => (by decide : (["A", "B"] : List String).Perm ["A", "B"]))
    (fun n l => List.Perm.refl l) hinf⟩

/-- C5 (amended: the participant names are assumed pairwise distinct, the
spec's stated precondition; `allocate` returns `none` on the duplicate
list ["A", "A"], see the counterexample).  For every duplicate-free
participants list of size at least 2 and empty exclusion mapping, the
engine returns a valid derangement — a permutation of the participants
with every participant appearing exactly once as giver and once as
receiver and nobody assigned to themselves — never the infeasibility
signal, for every behaviour of the randomness source. -/
theorem claim5_noExclusions_derangement (ps : List String)
    (shuffles : Nat → List String)
    (sigma : Nat → List String → List String)
    (hnd : ps.Nodup) (hlen : 2 ≤ ps.length)
    (hsh : ∀ k, (shuffles k).Perm ps)
    (hsigma : ∀ n l, (sigma n l).Perm l) :
    ∃ a, allocateSecretSanta ps (fun _ => []) shuffles sigma = some a ∧
      a.map Prod.fst = ps ∧ (a.map Prod.snd).Perm ps ∧
      ∀ pr ∈ a, pr.1 ≠ pr.2 := by
  obtain ⟨a, ha⟩ :=
    allocateSecretSanta_noExcl_some ps shuffles sigma hnd hlen hsigma
  obtain ⟨h1, h2, h3⟩ := allocateSecretSanta_sound ps (fun _ => [])
    shuffles sigma hnd hsh hsigma a ha
  exact ⟨a, ha, h1, h2, fun pr hpr => (h3 pr hpr).1⟩

/-- Witness for C5: the spec's concrete scenario ALICE/BOB/CAROL with no
exclusions. -/
theorem claim5_noExclusions_derangement_witness :
    (["ALICE", "BOB", "CAROL"] : List String).Nodup ∧
    2 ≤ (["ALICE", "BOB", "CAROL"] : List String).length ∧
    ∃ a, allocateSecretSanta ["ALICE", "BOB", "CAROL"] (fun _ => [])
        (fun _ => ["CAROL", "ALICE", "BOB"]) (fun _ l => l) = some a ∧
      a.map Prod.fst = ["ALICE", "BOB", "CAROL"] ∧
      (a.map Prod.snd).Perm ["ALICE", "BOB", "CAROL"] ∧
      ∀ pr ∈ a, pr.1 ≠ pr.2 := by
  refine ⟨by decide, by decide, ?_⟩
  exact claim5_noExclusions_derangement ["ALICE", "BOB", "CAROL"]
    (fun _ => ["CAROL", "ALICE", "BOB"]) (fun _ l => l) (by decide)
    (by decide)
    (fun _ => (by decide :
      (["CAROL", "ALICE", "BOB"] : List String).Perm ["ALICE", "BOB", "CAROL"]))
    (fun n l => List.Perm.refl l)

/-- Counterexample for C5 as stated: the list ["A", "A"] has size 2 but a
duplicated name, and the engine returns the infeasibility signal on it
(every trial pairs "A" with itself, and the fallback finds no unused
receiver for the second "A"). -/
theorem claim5_counterexample :
    2 ≤ (["A", "A"] : List String).length ∧
    allocateSecretSanta ["A", "A"] (fun _ => []) (fun _ => ["A", "A"])
      (fun _ l => l) = none := by
  refine ⟨by decide, ?_⟩
  unfold allocateSecretSanta
  rw [if_neg (by decide), trialPhase_none _ _ _
    (fun _ => (by decide :
      tryShuffle ["A", "A"] (fun _ => []) ["A", "A"] = none))
    maxAttempts 0]
  decide

/-- C7: the randomized phase performs at most `maxAttempts = 1000`
trials — it reads nothing of the shuffle stream beyond the first 1000
entries — and when it fails the engine returns exactly the result of the
systematic backtracking fallback. -/
theorem claim7_trial_cap (ps : List String) (excl : String → List String)
    (shuffles : Nat → List String)
    (sigma : Nat → List String → List String)
    (hlen : 2 ≤ ps.length)
    (hfail : trialPhase ps excl shuffles 0 maxAttempts = none) :
    maxAttempts = 1000 ∧
    allocateSecretSanta ps excl shuffles sigma =
      allocateSystematic ps excl sigma ∧
    ∀ shuffles2 : Nat → List String,
      (∀ k < maxAttempts, shuffles k = shuffles2 k) →
      trialPhase ps excl shuffles2 0 maxAttempts = none := by
  refine ⟨rfl, ?_, ?_⟩
  · unfold allocateSecretSanta
    rw [if_neg (by omega), hfail]
  · intro shuffles2 hagree
    rw [← trialPhase_congr ps excl shuffles shuffles2 maxAttempts 0
      (fun k _ h2 => hagree k (by omega))]
    exact hfail

/-- Witness for C7: on the infeasible mutual-exclusion pair all 1000
trials fail and the engine's result is the fallback's result. -/
theorem claim7_trial_cap_witness :
    (2 ≤ (["A", "B"] : List String).length ∧
      trialPhase ["A", "B"] exclAB (fun _ => ["A", "B"]) 0 maxAttempts
        = none) ∧
    (maxAttempts = 1000 ∧
      allocateSecretSanta ["A", "B"] exclAB (fun _ => ["A", "B"])
        (fun _ l => l) = allocateSystematic ["A", "B"] exclAB
        (fun _ l => l) ∧
      ∀ shuffles2 : Nat → List String,
        (∀ k < maxAttempts, (fun _ => ["A", "B"] : Nat → List String) k
          = shuffles2 k) →
        trialPhase ["A", "B"] exclAB shuffles2 0 maxAttempts = none) := by
  have hfail : trialPhase ["A", "B"] exclAB (fun _ => ["A", "B"]) 0
      maxAttempts = none :=
    trialPhase_none ["A", "B"] exclAB (fun _ => ["A", "B"])
      (fun _ => (by decide : tryShuffle ["A", "B"] exclAB ["A", "B"] = none))
      maxAttempts 0
  exact ⟨⟨by decide, hfail⟩, claim7_trial_cap ["A", "B"] exclAB
    (fun _ => ["A", "B"]) (fun _ l => l) (by decide) hfail⟩

/-- C8 (amended: the engine does re-validate one precondition — it
returns `none` outright for fewer than 2 participants, see the
counterexample — but performs no other input validation: for at least 2
participants its behaviour is exactly trial-phase-then-fallback, with no
check of name uniqueness or self-exclusion). -/
theorem claim8_precondition_checks :
    (∀ (ps : List String) (excl : String → List String)
        (shuffles : Nat → List String)
        (sigma : Nat → List String → List String),
      ps.length < 2 → allocateSecretSanta ps excl shuffles sigma = none) ∧
    (∀ (ps : List String) (excl : String → List String)
        (shuffles : Nat → List String)
        (sigma : Nat → List String → List String) (a : Alloc),
      2 ≤ ps.length → trialPhase ps excl shuffles 0 maxAttempts = some a →
      allocateSecretSanta ps excl shuffles sigma = some a) ∧
    (∀ (ps : List String) (excl : String → List String)
        (shuffles : Nat → List String)
        (sigma : Nat → List String → List String),
      2 ≤ ps.length → trialPhase ps excl shuffles 0 maxAttempts = none →
      allocateSecretSanta ps excl shuffles sigma =
        allocateSystematic ps excl sigma) := by
  refine ⟨?_, ?_, ?_⟩
  · intro ps excl shuffles sigma hlt
    unfold allocateSecretSanta
    rw [if_pos hlt]
  · intro ps excl shuffles sigma a hge htp
    unfold allocateSecretSanta
    rw [if_neg (by omega), htp]
  · intro ps excl shuffles sigma hge htp
    unfold allocateSecretSanta
    rw [if_neg (by omega), htp]

/-- Witness for C8: a one-element list is rejected early, and on a
two-element feasible input the engine returns the first trial's result
unchanged. -/
theorem claim8_precondition_checks_witness :
    ((["X"] : List String).length < 2 ∧
      allocateSecretSanta ["X"] (fun _ => []) (fun _ => ["X"])
        (fun _ l => l) = none) ∧
    (trialPhase ["X", "Y"] (fun _ => []) (fun _ => ["Y", "X"]) 0
        maxAttempts = some [("X", "Y"), ("Y", "X")] ∧
      allocateSecretSanta ["X", "Y"] (fun _ => []) (fun _ => ["Y", "X"])
        (fun _ l => l) = some [("X", "Y"), ("Y", "X")]) := by
  refine ⟨⟨by decide, claim8_precondition_checks.1 ["X"] (fun _ => [])
    (fun _ => ["X"]) (fun _ l => l) (by decide)⟩, by decide, ?_⟩
  exact claim8_precondition_checks.2.1 ["X", "Y"] (fun _ => [])
    (fun _ => ["Y", "X"]) (fun _ l => l) [("X", "Y"), ("Y", "X")]
    (by decide) (by decide)

/-- Counterexample for C8 as stated: the engine does branch on the
"at least 2 participants" precondition.  On the empty list it returns
`none` by the early guard, even though the trial phase itself (which the
guard skips) would accept immediately with the empty allocation — so the
guard is an engine-side check that changes the observable result. -/
theorem claim8_counterexample :
    allocateSecretSanta [] (fun _ => []) (fun _ => []) (fun _ l => l)
      = none ∧
    trialPhase [] (fun _ => []) (fun _ => []) 0 maxAttempts = some [] := by
  refine ⟨by decide, by decide⟩

/-! ## Payload codec: data model and JSON serialization -/

/-- The `SecretSantaPayload` interface: event title, description, giver
name, receiver name. -/
structure SecretSantaPayload where
  t : String
  d : String
  g : String
  r : String
deriving DecidableEq

/-- Lowercase hexadecimal digit (as used by `JSON.stringify` \u escapes). -/
def hexDigitLower (n : Nat) : Char :=
  if n < 10 then Char.ofNat (48 + n) else Char.ofNat (87 + n)

/-- Uppercase hexadecimal digit (as used by `encodeURIComponent`). -/
def hexDigitUpper (n : Nat) : Char :=
  if n < 10 then Char.ofNat (48 + n) else Char.ofNat (55 + n)

/-- `JSON.stringify` quoting of one character: the two-character escapes
for quote, backslash, backspace, tab, newline, form feed and carriage
return; \u00xx (lowercase hex) for the remaining control characters;
everything else literal. -/
def quoteJSONChar (c : Char) : List Char :=
  if c = '"' then ['\\', '"']
  else if c = '\\' then ['\\', '\\']
  else if c = Char.ofNat 8 then ['\\', 'b']
  else if c = Char.ofNat 9 then ['\\', 't']
  else if c = Char.ofNat 10 then ['\\', 'n']
  else if c = Char.ofNat 12 then ['\\', 'f']
  else if c = Char.ofNat 13 then ['\\', 'r']
  else if c.toNat < 32 then
    ['\\', 'u', '0', '0',
      hexDigitLower (c.toNat / 16), hexDigitLower (c.toNat % 16)]
  else [c]

/-- `JSON.stringify` of a string value. -/
def quoteJSONString (s : String) : List Char :=
  '"' :: (s.data.map quoteJSONChar).flatten ++ ['"']

/-- `JSON.stringify(payload)` for the four-field payload object, whose
insertion order is t, d, g, r (the order in which the caller constructs
the object literal). -/
def jsonStringifyPayload (p : SecretSantaPayload) : List Char :=
  '{' :: quoteJSONString "t" ++ ':' :: quoteJSONString p.t ++
  ',' :: quoteJSONString "d" ++ ':' :: quoteJSONString p.d ++
  ',' :: quoteJSONString "g" ++ ':' :: quoteJSONString p.g ++
  ',' :: quoteJSONString "r" ++ ':' :: quoteJSONString p.r ++ ['}']

/-! ## Payload codec: Base64 (`btoa` / `atob`) -/

/-- The standard Base64 alphabet. -/
def b64Alphabet : List Char :=
  ['A', 'B', 'C', 'D', 'E', 'F', 'G', 'H', 'I', 'J', 'K', 'L', 'M',
   'N', 'O', 'P', 'Q', 'R', 'S', 'T', 'U', 'V', 'W', 'X', 'Y', 'Z',
   'a', 'b', 'c', 'd', 'e', 'f', 'g', 'h', 'i', 'j', 'k', 'l', 'm',
   'n', 'o', 'p', 'q', 'r', 's', 't', 'u', 'v', 'w', 'x', 'y', 'z',
   '0', '1', '2', '3', '4', '5', '6', '7', '8', '9', '+', '/']

def b64Char (n : Nat) : Char := b64Alphabet.getD n 'A'

def b64Index (c : Char) : Option Nat :=
  if c ∈ b64Alphabet then some (b64Alphabet.indexOf c) else none

/-- The 6-bit groups of a byte sequence (base64 without padding). -/
def b64Sexts : List Nat → List Nat
  | [] => []
  | [b1] => [b1 / 4, b1 % 4 * 16]
  | [b1, b2] => [b1 / 4, b1 % 4 * 16 + b2 / 16, b2 % 16 * 4]
  | b1 :: b2 :: b3 :: rest =>
    b1 / 4 :: (b1 % 4 * 16 + b2 / 16) :: (b2 % 16 * 4 + b3 / 64) ::
      b3 % 64 :: b64Sexts rest

/-- The padding appended by base64 encoding. -/
def b64Padding : List Nat → List Char
  | [] => []
  | [_] => ['=', '=']
  | [_, _] => ['=']
  | _ :: _ :: _ :: rest => b64Padding rest

/-- Standard Base64 of a byte sequence, padded. -/
def b64EncodeBytes (bs : List Nat) : List Char :=
  (b64Sexts bs).map b64Char ++ b64Padding bs

/-- `btoa`: throws `InvalidCharacterError` (here: `none`) on any code
unit above 255, otherwise Base64 of the Latin-1 bytes. -/
def btoaChars (s : List Char) : Option (List Char) :=
  if s.all (fun c => c.toNat ≤ 255) then
    some (b64EncodeBytes (s.map Char.toNat))
  else none

/-- ASCII whitespace stripped by forgiving-base64 decode. -/
def isB64Ws (c : Char) : Bool :=
  c.toNat = 9 || c.toNat = 10 || c.toNat = 12 || c.toNat = 13 ||
    c.toNat = 32

/-- Remove one trailing '=' if present. -/
def stripPad (l : List Char) : List Char :=
  match l.getLast? with
  | some c => if c = '=' then l.dropLast else l
  | none => l

/-- Reassemble bytes from 6-bit groups; a remainder of one group is an
error, and the spare low bits of a trailing partial group are discarded
(forgiving-base64). -/
def sextetsToBytes : List Nat → Option (List Nat)
  | [] => some []
  | [_] => none
  | [a, b] => some [a * 4 + b / 16]
  | [a, b, c] => some [a * 4 + b / 16, b % 16 * 16 + c / 4]
  | a :: b :: c :: d :: rest =>
    (sextetsToBytes rest).map
      (fun bs => (a * 4 + b / 16) :: (b % 16 * 16 + c / 4) ::
        (c % 4 * 64 + d) :: bs)

/-- The padding-stripping step of forgiving-base64: up to two trailing
'=' are removed, only when the length is a multiple of 4. -/
def b64Strip (l : List Char) : List Char :=
  if l.length % 4 = 0 then stripPad (stripPad l) else l

/-- `atob` (WHATWG forgiving-base64 decode) down to bytes: strip ASCII
whitespace, strip up to two trailing '=' when the length is a multiple
of 4, reject a remainder of 1 modulo 4 and any character outside the
alphabet, then reassemble the bytes. -/
def atobBytes (s : List Char) : Option (List Nat) :=
  if (b64Strip (s.filter (fun c => !isB64Ws c))).length % 4 = 1 then none
  else
    ((b64Strip (s.filter (fun c => !isB64Ws c))).mapM b64Index).bind
      sextetsToBytes

/-- `atob` as a string operation: each decoded byte is one character. -/
def atobChars (s : List Char) : Option (List Char) :=
  (atobBytes s).map (fun bs => bs.map Char.ofNat)

/-! ## Payload codec: percent-encoding -/

/-- The characters `encodeURIComponent` leaves unescaped:
A-Z a-z 0-9 - _ . ! ~ * ' ( ). -/
def uriUnreserved (c : Char) : Bool :=
  (65 ≤ c.toNat && c.toNat ≤ 90) || (97 ≤ c.toNat && c.toNat ≤ 122) ||
  (48 ≤ c.toNat && c.toNat ≤ 57) ||
  c.toNat = 45 || c.toNat = 95 || c.toNat = 46 || c.toNat = 33 ||
  c.toNat = 126 || c.toNat = 42 || c.toNat = 39 || c.toNat = 40 ||
  c.toNat = 41

/-- UTF-8 bytes of one scalar value. -/
def utf8Bytes (c : Char) : List Nat :=
  if c.toNat < 128 then [c.toNat]
  else if c.toNat < 2048 then [192 + c.toNat / 64, 128 + c.toNat % 64]
  else if c.toNat < 65536 then
    [224 + c.toNat / 4096, 128 + c.toNat / 64 % 64, 128 + c.toNat % 64]
  else
    [240 + c.toNat / 262144, 128 + c.toNat / 4096 % 64,
     128 + c.toNat / 64 % 64, 128 + c.toNat % 64]

/-- `encodeURIComponent` on one character. -/
def encodeURIChar (c : Char) : List Char :=
  if uriUnreserved c then [c]
  else (utf8Bytes c).flatMap
    (fun b => ['%', hexDigitUpper (b / 16), hexDigitUpper (b % 16)])

/-- `encodeURIComponent`. -/
def encodeURIComponentChars (s : List Char) : List Char :=
  (s.map encodeURIChar).flatten

/-- Value of one hexadecimal digit (either case). -/
def hexVal (c : Char) : Option Nat :=
  if 48 ≤ c.toNat ∧ c.toNat ≤ 57 then some (c.toNat - 48)
  else if 65 ≤ c.toNat ∧ c.toNat ≤ 70 then some (c.toNat - 55)
  else if 97 ≤ c.toNat ∧ c.toNat ≤ 102 then some (c.toNat - 87)
  else none

/-- The two hex digits following a '%'. -/
def readPctByte : List Char → Option (Nat × List Char)
  | h1 :: h2 :: rest =>
    match hexVal h1, hexVal h2 with
    | some a, some b => some (a * 16 + b, rest)
    | _, _ => none
  | _ => none

/-- `k` further continuation bytes, each written as a "%XX" escape. -/
def readContBytes : Nat → List Char → Option (List Nat × List Char)
  | 0, rest => some ([], rest)
  | k + 1, l =>
    match l with
    | c :: h1 :: h2 :: rest =>
      if c = '%' then
        match hexVal h1, hexVal h2 with
        | some a, some b =>
          (readContBytes k rest).bind
            (fun pr => some ((a * 16 + b) :: pr.1, pr.2))
        | _, _ => none
      else none
    | _ => none

/-- Number of continuation bytes demanded by a UTF-8 leading byte
(`none` for an invalid leading byte, including the overlong leads
0xC0/0xC1 and anything above 0xF4). -/
def contCount (b : Nat) : Option Nat :=
  if b < 128 then some 0
  else if 194 ≤ b ∧ b ≤ 223 then some 1
  else if 224 ≤ b ∧ b ≤ 239 then some 2
  else if 240 ≤ b ∧ b ≤ 244 then some 3
  else none

/-- Combine a leading byte with its continuation bytes, validating
ranges, shortest form and the absence of surrogates (the ECMAScript
Decode algorithm rejects all of these with a URIError). -/
def utf8Combine (b : Nat) (conts : List Nat) : Option Nat :=
  if conts.any (fun x => x < 128 || 191 < x) then none
  else
    match conts with
    | [c1] =>
      if 194 ≤ b ∧ b ≤ 223 then some ((b - 192) * 64 + (c1 - 128))
      else none
    | [c1, c2] =>
      if 224 ≤ b ∧ b ≤ 239 ∧
          2048 ≤ (b - 224) * 4096 + (c1 - 128) * 64 + (c2 - 128) ∧
          ¬(55296 ≤ (b - 224) * 4096 + (c1 - 128) * 64 + (c2 - 128) ∧
            (b - 224) * 4096 + (c1 - 128) * 64 + (c2 - 128) ≤ 57343) then
        some ((b - 224) * 4096 + (c1 - 128) * 64 + (c2 - 128))
      else none
    | [c1, c2, c3] =>
      if 240 ≤ b ∧ b ≤ 244 ∧
          65536 ≤ (b - 240) * 262144 + (c1 - 128) * 4096 +
            (c2 - 128) * 64 + (c3 - 128) ∧
          (b - 240) * 262144 + (c1 - 128) * 4096 + (c2 - 128) * 64 +
            (c3 - 128) ≤ 1114111 then
        some ((b - 240) * 262144 + (c1 - 128) * 4096 + (c2 - 128) * 64 +
          (c3 - 128))
      else none
    | _ => none

/-- `decodeURIComponent`, fuelled by the input length (each step consumes
at least one input character). -/
def decodeURIAux : Nat → List Char → Option (List Char)
  | _, [] => some []
  | 0, _ :: _ => none
  | fuel + 1, c :: rest =>
    if c = '%' then
      match readPctByte rest with
      | none => none
      | some (b, rest2) =>
        if b < 128 then
          (decodeURIAux fuel rest2).map (fun cs => Char.ofNat b :: cs)
        else
          match contCount b with
          | none => none
          | some k =>
            match readContBytes k rest2 with
            | none => none
            | some (conts, rest3) =>
              match utf8Combine b conts with
              | none => none
              | some n =>
                (decodeURIAux fuel rest3).map
                  (fun cs => Char.ofNat n :: cs)
    else (decodeURIAux fuel rest).map (fun cs => c :: cs)

/-- `decodeURIComponent` (URIError is `none`). -/
def decodeURIComponentChars (s : List Char) : Option (List Char) :=
  decodeURIAux s.length s

/-! ## Payload codec: JSON.parse -/

/-- Parsed JSON values.  Numbers keep their lexeme: the codec only ever
inspects the shape of a value, never a numeric magnitude. -/
inductive Json where
  | null : Json
  | bool : Bool → Json
  | num : List Char → Json
  | str : List Char → Json
  | arr : List Json → Json
  | obj : List (List Char × Json) → Json

/-- JSON insignificant whitespace. -/
def isJsonWs (c : Char) : Bool :=
  c.toNat = 32 || c.toNat = 9 || c.toNat = 10 || c.toNat = 13

def skipWs (l : List Char) : List Char := l.dropWhile isJsonWs

/-- Expect a literal character sequence. -/
def stripChars : List Char → List Char → Option (List Char)
  | [], l => some l
  | p :: ps, c :: rest => if c = p then stripChars ps rest else none
  | _ :: _, [] => none

def parseHex4 (a b c d : Char) : Option Nat :=
  match hexVal a, hexVal b, hexVal c, hexVal d with
  | some x, some y, some z, some w => some (x * 4096 + y * 256 + z * 16 + w)
  | _, _, _, _ => none

/-- One escape sequence after a backslash in a JSON string: the short
escapes, and \uXXXX with surrogate-pair combination.  A lone surrogate
escape — expressible in a JavaScript string but not as a Lean scalar
value — is mapped to U+FFFD; no payload produced by `JSON.stringify`
contains one. -/
def parseEscape : List Char → Option (Char × List Char)
  | [] => none
  | e :: rest2 =>
    if e = '"' then some ('"', rest2)
    else if e = '\\' then some ('\\', rest2)
    else if e = '/' then some ('/', rest2)
    else if e = 'b' then some (Char.ofNat 8, rest2)
    else if e = 'f' then some (Char.ofNat 12, rest2)
    else if e = 'n' then some (Char.ofNat 10, rest2)
    else if e = 'r' then some (Char.ofNat 13, rest2)
    else if e = 't' then some (Char.ofNat 9, rest2)
    else if e = 'u' then
      match rest2 with
      | a :: b :: c2 :: d :: rest3 =>
        match parseHex4 a b c2 d with
        | none => none
        | some n =>
          if 55296 ≤ n ∧ n ≤ 56319 then
            match rest3 with
            | p :: u :: a2 :: b2 :: c3 :: d2 :: rest4 =>
              if p = '\\' ∧ u = 'u' then
                match parseHex4 a2 b2 c3 d2 with
                | some m =>
                  if 56320 ≤ m ∧ m ≤ 57343 then
                    some (Char.ofNat ((n - 55296) * 1024 + (m - 56320) +
                      65536), rest4)
                  else some (Char.ofNat 65533, rest3)
                | none => some (Char.ofNat 65533, rest3)
              else some (Char.ofNat 65533, rest3)
            | _ => some (Char.ofNat 65533, rest3)
          else if 56320 ≤ n ∧ n ≤ 57343 then some (Char.ofNat 65533, rest3)
          else some (Char.ofNat n, rest3)
      | _ => none
    else none

/-- Body of a JSON string after the opening quote: literal characters
(raw control characters are rejected) and backslash escapes, fuelled by
the input length (each step consumes at least one character). -/
def parseJStringAux : Nat → List Char → Option (List Char × List Char)
  | _, [] => none
  | 0, _ :: _ => none
  | fuel + 1, c :: rest =>
    if c = '"' then some ([], rest)
    else if c = '\\' then
      match parseEscape rest with
      | none => none
      | some (out, rest2) =>
        (parseJStringAux fuel rest2).map (fun pr => (out :: pr.1, pr.2))
    else if c.toNat < 32 then none
    else (parseJStringAux fuel rest).map (fun pr => (c :: pr.1, pr.2))

/-- Body of a JSON string after the opening quote (each step of the
fuelled worker consumes at least one input character). -/
def parseJStringBody (l : List Char) : Option (List Char × List Char) :=
  parseJStringAux l.length l

def isDigitChar (c : Char) : Bool := 48 ≤ c.toNat && c.toNat ≤ 57

/-- Optional fraction part of a JSON number. -/
def parseFracPart (l : List Char) : Option (List Char × List Char) :=
  match l with
  | c :: rest =>
    if c = '.' then
      match rest.span isDigitChar with
      | (ds, r2) => if ds.isEmpty then none else some ('.' :: ds, r2)
    else some ([], l)
  | [] => some ([], [])

/-- Optional exponent part of a JSON number. -/
def parseExpPart (l : List Char) : Option (List Char × List Char) :=
  match l with
  | c :: rest =>
    if c = 'e' ∨ c = 'E' then
      match rest with
      | s :: r2 =>
        if s = '+' ∨ s = '-' then
          match r2.span isDigitChar with
          | (ds, r3) => if ds.isEmpty then none else some (c :: s :: ds, r3)
        else
          match rest.span isDigitChar with
          | (ds, r3) => if ds.isEmpty then none else some (c :: ds, r3)
      | [] => none
    else some ([], l)
  | [] => some ([], [])

/-- A JSON number (strict grammar: optional minus, "0" or a nonzero-led
digit run, optional fraction, optional exponent), returned as its
lexeme. -/
def parseNumber (input : List Char) : Option (List Char × List Char) :=
  match input with
  | [] => none
  | c :: rest =>
    let (neg, r1) := if c = '-' then (['-'], rest) else (([] : List Char), input)
    match r1 with
    | [] => none
    | c2 :: rest2 =>
      if c2 = '0' then
        match parseFracPart rest2 with
        | none => none
        | some (fr, r3) =>
          match parseExpPart r3 with
          | none => none
          | some (ex, r4) => some (neg ++ '0' :: fr ++ ex, r4)
      else if isDigitChar c2 then
        match rest2.span isDigitChar with
        | (ds, r3) =>
          match parseFracPart r3 with
          | none => none
          | some (fr, r4) =>
            match parseExpPart r4 with
            | none => none
            | some (ex, r5) => some (neg ++ c2 :: ds ++ fr ++ ex, r5)
      else none

mutual

/-- One JSON value (fuelled; the fuel bounds the container-nesting work
and `jsonParse` supplies more than any input can consume). -/
def parseValue : Nat → List Char → Option (Json × List Char)
  | 0, _ => none
  | fuel + 1, input =>
    match skipWs input with
    | [] => none
    | c :: rest =>
      if c = '"' then
        (parseJStringBody rest).map (fun pr => (Json.str pr.1, pr.2))
      else if c = '{' then
        match skipWs rest with
        | c2 :: rest2 =>
          if c2 = '}' then some (Json.obj [], rest2)
          else
            (parseMemberList fuel (c2 :: rest2)).map
              (fun pr => (Json.obj pr.1, pr.2))
        | [] => none
      else if c = '[' then
        match skipWs rest with
        | c2 :: rest2 =>
          if c2 = ']' then some (Json.arr [], rest2)
          else
            (parseElemList fuel (c2 :: rest2)).map
              (fun pr => (Json.arr pr.1, pr.2))
        | [] => none
      else if c = 't' then
        (stripChars ['r', 'u', 'e'] rest).map
          (fun r2 => (Json.bool true, r2))
      else if c = 'f' then
        (stripChars ['a', 'l', 's', 'e'] rest).map
          (fun r2 => (Json.bool false, r2))
      else if c = 'n' then
        (stripChars ['u', 'l', 'l'] rest).map (fun r2 => (Json.null, r2))
      else if c = '-' ∨ isDigitChar c then
        (parseNumber (c :: rest)).map (fun pr => (Json.num pr.1, pr.2))
      else none

/-- A non-empty member list of a JSON object, expecting a key at the
head of the input (whitespace already skipped), through the closing
brace. -/
def parseMemberList :
    Nat → List Char → Option (List (List Char × Json) × List Char)
  | 0, _ => none
  | fuel + 1, input =>
    match input with
    | [] => none
    | c :: rest =>
      if c = '"' then
        match parseJStringBody rest with
        | none => none
        | some (key, r2) =>
          match skipWs r2 with
          | [] => none
          | c2 :: r3 =>
            if c2 = ':' then
              match parseValue fuel r3 with
              | none => none
              | some (v, r4) =>
                match skipWs r4 with
                | [] => none
                | c3 :: r5 =>
                  if c3 = ',' then
                    (parseMemberList fuel (skipWs r5)).map
                      (fun pr => ((key, v) :: pr.1, pr.2))
                  else if c3 = '}' then some ([(key, v)], r5)
                  else none
            else none
      else none

/-- A non-empty element list of a JSON array, through the closing
bracket. -/
def parseElemList : Nat → List Char → Option (List Json × List Char)
  | 0, _ => none
  | fuel + 1, input =>
    match parseValue fuel input with
    | none => none
    | some (v, r2) =>
      match skipWs r2 with
      | [] => none
      | c :: r3 =>
        if c = ',' then
          (parseElemList fuel r3).map (fun pr => (v :: pr.1, pr.2))
        else if c = ']' then some ([v], r3)
        else none

end

/-- `JSON.parse`: one value, then only trailing whitespace. -/
def jsonParse (s : List Char) : Option Json :=
  match parseValue (s.length + 1) s with
  | some (j, rest) => if (skipWs rest).isEmpty then some j else none
  | none => none

/-! ## Payload codec: the two exported functions -/

/-- Property access `object[k]` on a parsed JSON object: with duplicate
keys the last occurrence wins (JS objects are built by assignment in
member order). -/
def jsGetField (fields : List (List Char × Json)) (k : List Char) :
    Option Json :=
  ((fields.filter (fun pr => decide (pr.1 = k))).getLast?).map Prod.snd

/-- The shape validation of `decodePayload`: the parsed value must be an
object whose properties t, d, g, r are all strings. -/
def payloadOfJson : Json → Option SecretSantaPayload
  | Json.obj fields =>
    match jsGetField fields ['t'], jsGetField fields ['d'],
        jsGetField fields ['g'], jsGetField fields ['r'] with
    | some (Json.str tv), some (Json.str dv), some (Json.str gv),
        some (Json.str rv) =>
      some ⟨String.mk tv, String.mk dv, String.mk gv, String.mk rv⟩
    | _, _, _, _ => none
  | _ => none

/-- `encodePayload`: JSON.stringify → reverse → btoa → encodeURIComponent.
`none` models the uncaught `InvalidCharacterError` that `btoa` throws
when some character of the serialized payload is above U+00FF. -/
def encodePayload (p : SecretSantaPayload) : Option String :=
  (btoaChars (jsonStringifyPayload p).reverse).map
    (fun b64 => String.mk (encodeURIComponentChars b64))

/-- `decodePayload`: decodeURIComponent → atob → reverse → JSON.parse →
shape validation; every stage failure (the try/catch in the source) and
every shape failure yields `none`. -/
def decodePayload (s : String) : Option SecretSantaPayload :=
  match decodeURIComponentChars s.data with
  | none => none
  | some u =>
    match atobChars u with
    | none => none
    | some b =>
      match jsonParse b.reverse with
      | none => none
      | some j => payloadOfJson j

/-! ## Base64 round trip -/

theorem b64Index_b64Char : ∀ n, n < 64 → b64Index (b64Char n) = some n := by
  decide

theorem b64Char_not_pad : ∀ n, n < 64 → b64Char n ≠ '=' := by decide

theorem b64Char_not_ws : ∀ n, n < 64 → isB64Ws (b64Char n) = false := by
  decide

theorem b64Char_ascii : ∀ n, n < 64 → (b64Char n).toNat < 128 := by decide

theorem b64Sexts_lt (bs : List Nat) (h : ∀ b ∈ bs, b < 256) :
    ∀ x ∈ b64Sexts bs, x < 64 := by
  induction bs using b64Sexts.induct with
  | case1 => simp [b64Sexts]
  | case2 b1 =>
    have hb1 := h b1 (by simp)
    intro x hx
    rcases (by simpa [b64Sexts] using hx : x = b1 / 4 ∨ x = b1 % 4 * 16)
      with hx2 | hx2 <;> omega
  | case3 b1 b2 =>
    have hb1 := h b1 (by simp)
    have hb2 := h b2 (by simp)
    intro x hx
    rcases (by simpa [b64Sexts] using hx :
      x = b1 / 4 ∨ x = b1 % 4 * 16 + b2 / 16 ∨ x = b2 % 16 * 4)
      with hx2 | hx2 | hx2 <;> omega
  | case4 b1 b2 b3 rest ih =>
    have hb1 := h b1 (by simp)
    have hb2 := h b2 (by simp)
    have hb3 := h b3 (by simp)
    intro x hx
    rcases (by simpa [b64Sexts] using hx :
      x = b1 / 4 ∨ x = b1 % 4 * 16 + b2 / 16 ∨
      x = b2 % 16 * 4 + b3 / 64 ∨ x = b3 % 64 ∨ x ∈ b64Sexts rest)
      with hx2 | hx2 | hx2 | hx2 | hx2
    · omega
    · omega
    · omega
    · omega
    · exact ih (fun b hb => h b (by simp [hb])) x hx2

theorem b64Padding_eq_pad (bs : List Nat) :
    ∀ c ∈ b64Padding bs, c = '=' := by
  induction bs using b64Padding.induct with
  | case1 => simp [b64Padding]
  | case2 b1 => simp [b64Padding]
  | case3 b1 b2 => simp [b64Padding]
  | case4 b1 b2 b3 rest ih => simpa [b64Padding] using ih

theorem b64_length_cases (bs : List Nat) :
    ((b64Sexts bs).length % 4 = 0 ∧ b64Padding bs = []) ∨
    ((b64Sexts bs).length % 4 = 2 ∧ b64Padding bs = ['=', '=']) ∨
    ((b64Sexts bs).length % 4 = 3 ∧ b64Padding bs = ['=']) := by
  induction bs using b64Sexts.induct with
  | case1 => left; exact ⟨rfl, rfl⟩
  | case2 b1 => right; left; exact ⟨rfl, rfl⟩
  | case3 b1 b2 => right; right; exact ⟨rfl, rfl⟩
  | case4 b1 b2 b3 rest ih =>
    have hlen : (b64Sexts (b1 :: b2 :: b3 :: rest)).length =
        4 + (b64Sexts rest).length := by
      simp [b64Sexts]
      omega
    have hpad : b64Padding (b1 :: b2 :: b3 :: rest) = b64Padding rest := rfl
    rw [hlen, hpad, Nat.add_mod_left]
    exact ih

theorem stripPad_of_no_pad (l : List Char) (h : ∀ c ∈ l, c ≠ '=') :
    stripPad l = l := by
  unfold stripPad
  rcases hl : l.getLast? with _ | c
  · rfl
  · have hcmem : c ∈ l := by
      obtain ⟨hne, hceq⟩ := List.mem_getLast?_eq_getLast (x := c) hl
      rw [hceq]
      exact List.getLast_mem hne
    show (if c = '=' then l.dropLast else l) = l
    rw [if_neg (h c hcmem)]

theorem stripPad_concat_pad (xs : List Char) :
    stripPad (xs ++ ['=']) = xs := by
  unfold stripPad
  rw [List.getLast?_concat]
  show (if ('=' : Char) = '=' then (xs ++ ['=']).dropLast else xs ++ ['=']) = xs
  rw [if_pos rfl]
  exact List.dropLast_concat

theorem mapM_b64Index_map_b64Char :
    ∀ l : List Nat, (∀ x ∈ l, x < 64) →
      (l.map b64Char).mapM b64Index = some l := by
  intro l
  induction l with
  | nil => intro _; rfl
  | cons x xs ih =>
    intro h
    rw [List.map_cons, List.mapM_cons,
      b64Index_b64Char x (h x (List.mem_cons_self x xs)),
      ih (fun y hy => h y (List.mem_cons_of_mem x hy))]
    rfl

theorem sextetsToBytes_b64Sexts :
    ∀ bs : List Nat, (∀ b ∈ bs, b < 256) →
      sextetsToBytes (b64Sexts bs) = some bs := by
  intro bs
  induction bs using b64Sexts.induct with
  | case1 => intro _; rfl
  | case2 b1 =>
    intro h
    have hb1 := h b1 (by simp)
    show sextetsToBytes [b1 / 4, b1 % 4 * 16] = some [b1]
    unfold sextetsToBytes
    have harith : b1 / 4 * 4 + b1 % 4 * 16 / 16 = b1 := by omega
    rw [harith]
  | case3 b1 b2 =>
    intro h
    have hb1 := h b1 (by simp)
    have hb2 := h b2 (by simp)
    show sextetsToBytes
      [b1 / 4, b1 % 4 * 16 + b2 / 16, b2 % 16 * 4] = some [b1, b2]
    unfold sextetsToBytes
    have h1 : b1 / 4 * 4 + (b1 % 4 * 16 + b2 / 16) / 16 = b1 := by omega
    have h2 : (b1 % 4 * 16 + b2 / 16) % 16 * 16 + b2 % 16 * 4 / 4 = b2 := by
      omega
    rw [h1, h2]
  | case4 b1 b2 b3 rest ih =>
    intro h
    have hb1 := h b1 (by simp)
    have hb2 := h b2 (by simp)
    have hb3 := h b3 (by simp)
    have hrest := ih (fun b hb => h b (by simp [hb]))
    show sextetsToBytes (b1 / 4 :: (b1 % 4 * 16 + b2 / 16) ::
      (b2 % 16 * 4 + b3 / 64) :: b3 % 64 :: b64Sexts rest) =
      some (b1 :: b2 :: b3 :: rest)
    unfold sextetsToBytes
    rw [hrest]
    have h1 : b1 / 4 * 4 + (b1 % 4 * 16 + b2 / 16) / 16 = b1 := by omega
    have h2 : (b1 % 4 * 16 + b2 / 16) % 16 * 16 +
        (b2 % 16 * 4 + b3 / 64) / 4 = b2 := by omega
    have h3 : (b2 % 16 * 4 + b3 / 64) % 4 * 64 + b3 % 64 = b3 := by omega
    rw [h1, h2, h3]
    rfl

theorem atobBytes_b64EncodeBytes (bs : List Nat) (h : ∀ b ∈ bs, b < 256) :
    atobBytes (b64EncodeBytes bs) = some bs := by
  have hsex := b64Sexts_lt bs h
  have hnopad : ∀ c ∈ (b64Sexts bs).map b64Char, c ≠ '=' := by
    intro c hc
    obtain ⟨x, hx, rfl⟩ := List.mem_map.mp hc
    exact b64Char_not_pad x (hsex x hx)
  have hnows : ∀ c ∈ b64EncodeBytes bs, (!isB64Ws c) = true := by
    intro c hc
    rcases List.mem_append.mp hc with hc | hc
    · obtain ⟨x, hx, rfl⟩ := List.mem_map.mp hc
      rw [b64Char_not_ws x (hsex x hx)]
      rfl
    · rw [b64Padding_eq_pad bs c hc]
      rfl
  have hfilter :
      (b64EncodeBytes bs).filter (fun c => !isB64Ws c) = b64EncodeBytes bs :=
    List.filter_eq_self.mpr hnows
  have hrest : ((b64Sexts bs).map b64Char).mapM b64Index =
      some (b64Sexts bs) := mapM_b64Index_map_b64Char _ hsex
  have hlenmap : ((b64Sexts bs).map b64Char).length = (b64Sexts bs).length :=
    List.length_map _ _
  rcases b64_length_cases bs with ⟨h1, h2⟩ | ⟨h1, h2⟩ | ⟨h1, h2⟩
  · have henc : b64EncodeBytes bs = (b64Sexts bs).map b64Char := by
      unfold b64EncodeBytes
      rw [h2, List.append_nil]
    have hstrip : b64Strip ((b64EncodeBytes bs).filter (fun c => !isB64Ws c))
        = (b64Sexts bs).map b64Char := by
      rw [hfilter, henc]
      unfold b64Strip
      rw [hlenmap, h1, if_pos rfl,
        stripPad_of_no_pad _ hnopad, stripPad_of_no_pad _ hnopad]
    unfold atobBytes
    rw [hstrip, hlenmap, if_neg (by omega), hrest]
    exact sextetsToBytes_b64Sexts bs h
  · have henc : b64EncodeBytes bs =
        ((b64Sexts bs).map b64Char ++ ['=']) ++ ['='] := by
      unfold b64EncodeBytes
      rw [h2, List.append_assoc]
      rfl
    have hstrip : b64Strip ((b64EncodeBytes bs).filter (fun c => !isB64Ws c))
        = (b64Sexts bs).map b64Char := by
      rw [hfilter, henc]
      unfold b64Strip
      have hlen : (((b64Sexts bs).map b64Char ++ ['=']) ++ ['=']).length % 4
          = 0 := by
        simp only [List.length_append, List.length_singleton, hlenmap]
        omega
      rw [hlen, if_pos rfl, stripPad_concat_pad, stripPad_concat_pad]
    unfold atobBytes
    rw [hstrip, hlenmap, if_neg (by omega), hrest]
    exact sextetsToBytes_b64Sexts bs h
  · have henc : b64EncodeBytes bs = (b64Sexts bs).map b64Char ++ ['='] := by
      unfold b64EncodeBytes
      rw [h2]
    have hstrip : b64Strip ((b64EncodeBytes bs).filter (fun c => !isB64Ws c))
        = (b64Sexts bs).map b64Char := by
      rw [hfilter, henc]
      unfold b64Strip
      have hlen : ((b64Sexts bs).map b64Char ++ ['=']).length % 4 = 0 := by
        simp only [List.length_append, List.length_singleton, hlenmap]
        omega
      rw [hlen, if_pos rfl, stripPad_concat_pad, stripPad_of_no_pad _ hnopad]
    unfold atobBytes
    rw [hstrip, hlenmap, if_neg (by omega), hrest]
    exact sextetsToBytes_b64Sexts bs h

/-- `btoa` succeeds exactly on Latin-1 inputs, with the standard Base64
of the code units. -/
theorem btoaChars_eq_some (s : List Char) (h : ∀ c ∈ s, c.toNat ≤ 255) :
    btoaChars s = some (b64EncodeBytes (s.map Char.toNat)) := by
  unfold btoaChars
  rw [if_pos]
  exact List.all_eq_true.mpr (fun c hc => decide_eq_true (h c hc))

/-- `atob ∘ btoa` is the identity on Latin-1 strings. -/
theorem atobChars_btoaChars (s : List Char) (h : ∀ c ∈ s, c.toNat ≤ 255) :
    atobChars (b64EncodeBytes (s.map Char.toNat)) = some s := by
  unfold atobChars
  rw [atobBytes_b64EncodeBytes (s.map Char.toNat)
    (fun b hb => by
      obtain ⟨c, hc, rfl⟩ := List.mem_map.mp hb
      have := h c hc
      omega)]
  show some ((s.map Char.toNat).map Char.ofNat) = some s
  rw [List.map_map]
  have hid : (s.map fun c => Char.ofNat c.toNat) = s := by
    rw [List.map_congr_left (fun c _ => Char.ofNat_toNat c)]
    exact List.map_id s
  rw [show (Char.ofNat ∘ Char.toNat) = fun c => Char.ofNat c.toNat from rfl,
    hid]

/-! ## Percent-encoding round trip -/

theorem hexVal_hexDigitUpper : ∀ n, n < 16 →
    hexVal (hexDigitUpper n) = some n := by decide

theorem hexVal_hexDigitLower : ∀ n, n < 16 →
    hexVal (hexDigitLower n) = some n := by decide

theorem uriUnreserved_ne_pct (c : Char) (h : uriUnreserved c = true) :
    ¬ c = '%' := by
  intro heq
  rw [heq] at h
  exact absurd h (by decide)

theorem readPctByte_eval (h1 h2 : Char) (rest : List Char) (a b : Nat)
    (ha : hexVal h1 = some a) (hb : hexVal h2 = some b) :
    readPctByte (h1 :: h2 :: rest) = some (a * 16 + b, rest) := by
  simp only [readPctByte, ha, hb]

/-- Decoding consumes one percent-encoded ASCII character in one step. -/
theorem decodeURIAux_encodeChar (c : Char) (hc : c.toNat < 128)
    (fuel : Nat) (rest : List Char) :
    decodeURIAux (fuel + 1) (encodeURIChar c ++ rest) =
      (decodeURIAux fuel rest).map (fun cs => c :: cs) := by
  unfold encodeURIChar
  cases hunres : uriUnreserved c with
  | true =>
    rw [if_pos rfl]
    show decodeURIAux (fuel + 1) (c :: rest) = _
    conv_lhs => unfold decodeURIAux
    rw [if_neg (uriUnreserved_ne_pct c hunres)]
  | false =>
    rw [if_neg (by simp)]
    have hbytes : utf8Bytes c = [c.toNat] := by
      unfold utf8Bytes
      rw [if_pos hc]
    rw [hbytes]
    show decodeURIAux (fuel + 1)
      ('%' :: hexDigitUpper (c.toNat / 16) :: hexDigitUpper (c.toNat % 16)
        :: rest) = _
    conv_lhs => unfold decodeURIAux
    rw [if_pos rfl, readPctByte_eval _ _ rest (c.toNat / 16) (c.toNat % 16)
      (hexVal_hexDigitUpper (c.toNat / 16) (by omega))
      (hexVal_hexDigitUpper (c.toNat % 16) (by omega))]
    dsimp only
    rw [if_pos (by omega : c.toNat / 16 * 16 + c.toNat % 16 < 128),
      show c.toNat / 16 * 16 + c.toNat % 16 = c.toNat from by omega,
      Char.ofNat_toNat]

theorem one_le_length_encodeURIChar (c : Char) :
    1 ≤ (encodeURIChar c).length := by
  unfold encodeURIChar
  split
  · simp
  · unfold utf8Bytes
    split
    · simp
    · split
      · simp
      · split
        · simp
        · simp

theorem encodeURIComponent_length (s : List Char) :
    s.length ≤ (encodeURIComponentChars s).length := by
  induction s with
  | nil => simp [encodeURIComponentChars]
  | cons c cs ih =>
    unfold encodeURIComponentChars at ih ⊢
    rw [List.map_cons, List.flatten_cons, List.length_append,
      List.length_cons]
    have := one_le_length_encodeURIChar c
    omega

theorem decodeURI_encodeURI_ascii (s : List Char)
    (h : ∀ c ∈ s, c.toNat < 128) :
    ∀ fuel, s.length ≤ fuel →
      decodeURIAux fuel (encodeURIComponentChars s) = some s := by
  induction s with
  | nil =>
    intro fuel _
    show decodeURIAux fuel [] = some []
    cases fuel <;> rfl
  | cons c cs ih =>
    intro fuel hf
    obtain ⟨f, rfl⟩ : ∃ f, fuel = f + 1 :=
      ⟨fuel - 1, by rw [List.length_cons] at hf; omega⟩
    have hexp : encodeURIComponentChars (c :: cs) =
        encodeURIChar c ++ encodeURIComponentChars cs := by
      unfold encodeURIComponentChars
      rw [List.map_cons, List.flatten_cons]
    rw [hexp, decodeURIAux_encodeChar c (h c (List.mem_cons_self c cs)) f _,
      ih (fun x hx => h x (List.mem_cons_of_mem c hx)) f
        (by rw [List.length_cons] at hf; omega)]
    rfl

/-- `decodeURIComponent ∘ encodeURIComponent` is the identity on ASCII
strings. -/
theorem decodeURIComponent_encodeURIComponent (s : List Char)
    (h : ∀ c ∈ s, c.toNat < 128) :
    decodeURIComponentChars (encodeURIComponentChars s) = some s :=
  decodeURI_encodeURI_ascii s h _ (encodeURIComponent_length s)

/-! ## JSON string round trip -/

theorem parseHex4_eval (a b c d : Char) (x y z w : Nat)
    (ha : hexVal a = some x) (hb : hexVal b = some y)
    (hc : hexVal c = some z) (hd : hexVal d = some w) :
    parseHex4 a b c d = some (x * 4096 + y * 256 + z * 16 + w) := by
  simp only [parseHex4, ha, hb, hc, hd]

theorem quoteJSONChar_length_pos (c : Char) :
    1 ≤ (quoteJSONChar c).length := by
  unfold quoteJSONChar
  split_ifs <;> simp

theorem quoteBody_length (s : List Char) :
    s.length ≤ ((s.map quoteJSONChar).flatten).length := by
  induction s with
  | nil => simp
  | cons c cs ih =>
    rw [List.map_cons, List.flatten_cons, List.length_append,
      List.length_cons]
    have := quoteJSONChar_length_pos c
    omega

/-- One-step unfolding of the string-body worker. -/
theorem parseJStringAux_succ_cons (f : Nat) (c : Char) (rest : List Char) :
    parseJStringAux (f + 1) (c :: rest) =
      if c = '"' then some ([], rest)
      else if c = '\\' then
        match parseEscape rest with
        | none => none
        | some (out, rest2) =>
          (parseJStringAux f rest2).map (fun pr => (out :: pr.1, pr.2))
      else if c.toNat < 32 then none
      else (parseJStringAux f rest).map (fun pr => (c :: pr.1, pr.2)) := by
  rfl

theorem parseEscape_u00 (x y : Nat) (hx : x < 16) (hy : y < 16)
    (rest : List Char) :
    parseEscape ('u' :: '0' :: '0' :: hexDigitLower x ::
      hexDigitLower y :: rest) = some (Char.ofNat (x * 16 + y), rest) := by
  have hh := parseHex4_eval '0' '0' (hexDigitLower x) (hexDigitLower y)
    0 0 x y (by decide) (by decide) (hexVal_hexDigitLower x hx)
    (hexVal_hexDigitLower y hy)
  simp [parseEscape, hh]
  rw [if_neg (by omega : ¬(55296 ≤ x * 16 + y ∧ x * 16 + y ≤ 56319)),
    if_neg (by omega : ¬(56320 ≤ x * 16 + y ∧ x * 16 + y ≤ 57343))]

/-- A backslash step of the string-body parser, driven by the escape
parser. -/
theorem parseJStringAux_escape (f : Nat) (rest rest2 : List Char)
    (out : Char) (hesc : parseEscape rest = some (out, rest2)) :
    parseJStringAux (f + 1) ('\\' :: rest) =
      (parseJStringAux f rest2).map (fun pr => (out :: pr.1, pr.2)) := by
  rw [parseJStringAux_succ_cons, if_neg (by decide), if_pos rfl, hesc]

theorem quoteJSONChar_literal (c : Char) (h1 : ¬c = '"')
    (h2 : ¬c = '\\') (h8 : ¬c.toNat < 32) : quoteJSONChar c = [c] := by
  unfold quoteJSONChar
  rw [if_neg h1, if_neg h2, if_neg (fun he => h8 (by rw [he]; decide)),
    if_neg (fun he => h8 (by rw [he]; decide)),
    if_neg (fun he => h8 (by rw [he]; decide)),
    if_neg (fun he => h8 (by rw [he]; decide)),
    if_neg (fun he => h8 (by rw [he]; decide)), if_neg h8]

theorem quoteJSONChar_control (c : Char) (h1 : ¬c = '"')
    (h2 : ¬c = '\\') (h3 : ¬c = Char.ofNat 8) (h4 : ¬c = Char.ofNat 9)
    (h5 : ¬c = Char.ofNat 10) (h6 : ¬c = Char.ofNat 12)
    (h7 : ¬c = Char.ofNat 13) (h8 : c.toNat < 32) :
    quoteJSONChar c = ['\\', 'u', '0', '0', hexDigitLower (c.toNat / 16),
      hexDigitLower (c.toNat % 16)] := by
  unfold quoteJSONChar
  rw [if_neg h1, if_neg h2, if_neg h3, if_neg h4, if_neg h5, if_neg h6,
    if_neg h7, if_pos h8]

/-- The string-body parser inverts `JSON.stringify` quoting: reading the
quoted form of `s` up to a closing quote yields `s` and the remainder. -/
theorem parseJStringAux_quote :
    ∀ (s : List Char) (fuel : Nat) (rest : List Char), s.length < fuel →
      parseJStringAux fuel ((s.map quoteJSONChar).flatten ++ '"' :: rest) =
        some (s, rest) := by
  intro s
  induction s with
  | nil =>
    intro fuel rest hf
    obtain ⟨f, rfl⟩ : ∃ f, fuel = f + 1 := ⟨fuel - 1, by omega⟩
    show parseJStringAux (f + 1) ('"' :: rest) = some ([], rest)
    rw [parseJStringAux_succ_cons, if_pos rfl]
  | cons c cs ih =>
    intro fuel rest hf
    obtain ⟨f, rfl⟩ : ∃ f, fuel = f + 1 := ⟨fuel - 1, by omega⟩
    have hcs : cs.length < f := by rw [List.length_cons] at hf; omega
    rw [List.map_cons, List.flatten_cons, List.append_assoc]
    by_cases h1 : c = '"'
    · subst h1
      rw [show quoteJSONChar '"' = ['\\', '"'] from rfl, List.cons_append,
        List.cons_append, List.nil_append,
        parseJStringAux_escape f
          ('"' :: ((cs.map quoteJSONChar).flatten ++ '"' :: rest))
          ((cs.map quoteJSONChar).flatten ++ '"' :: rest) '"' rfl,
        ih f rest hcs]
      rfl
    · by_cases h2 : c = '\\'
      · subst h2
        rw [show quoteJSONChar '\\' = ['\\', '\\'] from rfl,
          List.cons_append, List.cons_append, List.nil_append,
          parseJStringAux_escape f
            ('\\' :: ((cs.map quoteJSONChar).flatten ++ '"' :: rest))
            ((cs.map quoteJSONChar).flatten ++ '"' :: rest) '\\' rfl,
          ih f rest hcs]
        rfl
      · by_cases h3 : c = Char.ofNat 8
        · subst h3
          rw [show quoteJSONChar (Char.ofNat 8) = ['\\', 'b'] from rfl,
            List.cons_append, List.cons_append, List.nil_append,
            parseJStringAux_escape f
              ('b' :: ((cs.map quoteJSONChar).flatten ++ '"' :: rest))
              ((cs.map quoteJSONChar).flatten ++ '"' :: rest)
              (Char.ofNat 8) rfl,
            ih f rest hcs]
          rfl
        · by_cases h4 : c = Char.ofNat 9
          · subst h4
            rw [show quoteJSONChar (Char.ofNat 9) = ['\\', 't'] from rfl,
              List.cons_append, List.cons_append, List.nil_append,
              parseJStringAux_escape f
                ('t' :: ((cs.map quoteJSONChar).flatten ++ '"' :: rest))
                ((cs.map quoteJSONChar).flatten ++ '"' :: rest)
                (Char.ofNat 9) rfl,
              ih f rest hcs]
            rfl
          · by_cases h5 : c = Char.ofNat 10
            · subst h5
              rw [show quoteJSONChar (Char.ofNat 10) = ['\\', 'n']
                  from rfl,
                List.cons_append, List.cons_append, List.nil_append,
                parseJStringAux_escape f
                  ('n' :: ((cs.map quoteJSONChar).flatten ++ '"' :: rest))
                  ((cs.map quoteJSONChar).flatten ++ '"' :: rest)
                  (Char.ofNat 10) rfl,
                ih f rest hcs]
              rfl
            · by_cases h6 : c = Char.ofNat 12
              · subst h6
                rw [show quoteJSONChar (Char.ofNat 12) = ['\\', 'f']
                    from rfl,
                  List.cons_append, List.cons_append, List.nil_append,
                  parseJStringAux_escape f
                    ('f' :: ((cs.map quoteJSONChar).flatten ++
                      '"' :: rest))
                    ((cs.map quoteJSONChar).flatten ++ '"' :: rest)
                    (Char.ofNat 12) rfl,
                  ih f rest hcs]
                rfl
              · by_cases h7 : c = Char.ofNat 13
                · subst h7
                  rw [show quoteJSONChar (Char.ofNat 13) = ['\\', 'r']
                      from rfl,
                    List.cons_append, List.cons_append, List.nil_append,
                    parseJStringAux_escape f
                      ('r' :: ((cs.map quoteJSONChar).flatten ++
                        '"' :: rest))
                      ((cs.map quoteJSONChar).flatten ++ '"' :: rest)
                      (Char.ofNat 13) rfl,
                    ih f rest hcs]
                  rfl
                · by_cases h8 : c.toNat < 32
                  · rw [quoteJSONChar_control c h1 h2 h3 h4 h5 h6 h7 h8,
                      List.cons_append, List.cons_append,
                      List.cons_append, List.cons_append,
                      List.cons_append, List.cons_append,
                      List.nil_append,
                      parseJStringAux_escape f
                        ('u' :: '0' :: '0' ::
                          hexDigitLower (c.toNat / 16) ::
                          hexDigitLower (c.toNat % 16) ::
                          ((cs.map quoteJSONChar).flatten ++ '"' :: rest))
                        ((cs.map quoteJSONChar).flatten ++ '"' :: rest)
                        (Char.ofNat (c.toNat / 16 * 16 + c.toNat % 16))
                        (parseEscape_u00 (c.toNat / 16) (c.toNat % 16)
                          (by omega) (by omega) _),
                      ih f rest hcs,
                      show c.toNat / 16 * 16 + c.toNat % 16 = c.toNat
                        from by omega,
                      Char.ofNat_toNat]
                    rfl
                  · rw [quoteJSONChar_literal c h1 h2 h8, List.cons_append,
                      List.nil_append, parseJStringAux_succ_cons,
                      if_neg h1, if_neg h2, if_neg h8, ih f rest hcs]
                    rfl

/-- `parseJStringBody` inverts `quoteJSONString` (modulo the opening
quote, consumed by the caller). -/
theorem parseJStringBody_quote (s : String) (rest : List Char) :
    parseJStringBody ((s.data.map quoteJSONChar).flatten ++ '"' :: rest) =
      some (s.data, rest) := by
  unfold parseJStringBody
  apply parseJStringAux_quote
  have := quoteBody_length s.data
  rw [List.length_append, List.length_cons]
  omega

/-! ## JSON object round trip -/

theorem skipWs_cons_of_not_ws (c : Char) (l : List Char)
    (h : isJsonWs c = false) : skipWs (c :: l) = c :: l := by
  unfold skipWs
  simp [List.dropWhile_cons, h]

theorem parseValue_str_step (f : Nat) (rest : List Char) :
    parseValue (f + 1) ('"' :: rest) =
      (parseJStringBody rest).map (fun pr => (Json.str pr.1, pr.2)) := rfl

/-- `parseValue` inverts `JSON.stringify` on a string value. -/
theorem parseValue_string (v : String) (f : Nat) (tail : List Char) :
    parseValue (f + 1) (quoteJSONString v ++ tail) =
      some (Json.str v.data, tail) := by
  have hq : quoteJSONString v ++ tail =
      '"' :: ((v.data.map quoteJSONChar).flatten ++ '"' :: tail) := by
    unfold quoteJSONString
    simp [List.append_assoc]
  rw [hq, parseValue_str_step, parseJStringBody_quote]
  rfl

theorem parseMemberList_key_step (f : Nat) (rest : List Char) :
    parseMemberList (f + 1) ('"' :: rest) =
      match parseJStringBody rest with
      | none => none
      | some (key, r2) =>
        match skipWs r2 with
        | [] => none
        | c2 :: r3 =>
          if c2 = ':' then
            match parseValue f r3 with
            | none => none
            | some (v, r4) =>
              match skipWs r4 with
              | [] => none
              | c3 :: r5 =>
                if c3 = ',' then
                  (parseMemberList f (skipWs r5)).map
                    (fun pr => ((key, v) :: pr.1, pr.2))
                else if c3 = '}' then some ([(key, v)], r5)
                else none
          else none := by
  rfl

/-- Parse one `"k":"v",` member (single-character key) and continue. -/
theorem parseMemberList_step (kc : Char) (hkq : quoteJSONChar kc = [kc])
    (v : String) (f : Nat) (rest : List Char) (hf : 1 ≤ f) :
    parseMemberList (f + 1)
      ('"' :: kc :: '"' :: ':' :: (quoteJSONString v ++ ',' :: rest)) =
      (parseMemberList f (skipWs rest)).map
        (fun pr => (([kc], Json.str v.data) :: pr.1, pr.2)) := by
  obtain ⟨f2, rfl⟩ : ∃ f2, f = f2 + 1 := ⟨f - 1, by omega⟩
  have hkey : parseJStringBody
      (kc :: '"' :: ':' :: (quoteJSONString v ++ ',' :: rest)) =
      some ([kc], ':' :: (quoteJSONString v ++ ',' :: rest)) := by
    have hq := parseJStringBody_quote (String.mk [kc])
      (':' :: (quoteJSONString v ++ ',' :: rest))
    rw [show ((String.mk [kc]).data.map quoteJSONChar).flatten =
      quoteJSONChar kc ++ [] from rfl, hkq] at hq
    simpa using hq
  rw [parseMemberList_key_step, hkey]
  dsimp only
  rw [skipWs_cons_of_not_ws ':' _ (by decide)]
  dsimp only
  rw [if_pos rfl, parseValue_string v f2 (',' :: rest)]
  dsimp only
  rw [skipWs_cons_of_not_ws ',' _ (by decide)]
  dsimp only
  rw [if_pos rfl]

/-- Parse the final `"k":"v"}` member (single-character key). -/
theorem parseMemberList_last (kc : Char) (hkq : quoteJSONChar kc = [kc])
    (v : String) (f : Nat) (rest : List Char) (hf : 1 ≤ f) :
    parseMemberList (f + 1)
      ('"' :: kc :: '"' :: ':' :: (quoteJSONString v ++ '}' :: rest)) =
      some ([([kc], Json.str v.data)], rest) := by
  obtain ⟨f2, rfl⟩ : ∃ f2, f = f2 + 1 := ⟨f - 1, by omega⟩
  have hkey : parseJStringBody
      (kc :: '"' :: ':' :: (quoteJSONString v ++ '}' :: rest)) =
      some ([kc], ':' :: (quoteJSONString v ++ '}' :: rest)) := by
    have hq := parseJStringBody_quote (String.mk [kc])
      (':' :: (quoteJSONString v ++ '}' :: rest))
    rw [show ((String.mk [kc]).data.map quoteJSONChar).flatten =
      quoteJSONChar kc ++ [] from rfl, hkq] at hq
    simpa using hq
  rw [parseMemberList_key_step, hkey]
  dsimp only
  rw [skipWs_cons_of_not_ws ':' _ (by decide)]
  dsimp only
  rw [if_pos rfl, parseValue_string v f2 ('}' :: rest)]
  dsimp only
  rw [skipWs_cons_of_not_ws '}' _ (by decide)]
  dsimp only
  rw [if_neg (by decide), if_pos rfl]

theorem parseValue_obj_entry (f : Nat) (rest : List Char) :
    parseValue (f + 1) ('{' :: rest) =
      match skipWs rest with
      | c2 :: rest2 =>
        if c2 = '}' then some (Json.obj [], rest2)
        else
          (parseMemberList f (c2 :: rest2)).map
            (fun pr => (Json.obj pr.1, pr.2))
      | [] => none := rfl

/-- `parseValue` inverts `JSON.stringify` on the four-field payload
object. -/
theorem parseValue_stringify (p : SecretSantaPayload) (m : Nat) :
    parseValue (m + 6) (jsonStringifyPayload p) =
      some (Json.obj [(['t'], Json.str p.t.data),
        (['d'], Json.str p.d.data), (['g'], Json.str p.g.data),
        (['r'], Json.str p.r.data)], []) := by
  have hform : jsonStringifyPayload p =
      '{' :: '"' :: 't' :: '"' :: ':' :: (quoteJSONString p.t ++
        ',' :: ('"' :: 'd' :: '"' :: ':' :: (quoteJSONString p.d ++
        ',' :: ('"' :: 'g' :: '"' :: ':' :: (quoteJSONString p.g ++
        ',' :: ('"' :: 'r' :: '"' :: ':' :: (quoteJSONString p.r ++
        '}' :: []))))))) := by
    unfold jsonStringifyPayload
    rw [show quoteJSONString "t" = ['"', 't', '"'] from rfl,
      show quoteJSONString "d" = ['"', 'd', '"'] from rfl,
      show quoteJSONString "g" = ['"', 'g', '"'] from rfl,
      show quoteJSONString "r" = ['"', 'r', '"'] from rfl]
    simp [List.append_assoc]
  rw [hform, show m + 6 = (m + 5) + 1 from rfl, parseValue_obj_entry,
    skipWs_cons_of_not_ws '"' _ (by decide)]
  dsimp only
  rw [if_neg (by decide), show m + 5 = (m + 4) + 1 from rfl,
    parseMemberList_step 't' rfl p.t (m + 4) _ (by omega),
    skipWs_cons_of_not_ws '"' _ (by decide),
    show m + 4 = (m + 3) + 1 from rfl,
    parseMemberList_step 'd' rfl p.d (m + 3) _ (by omega),
    skipWs_cons_of_not_ws '"' _ (by decide),
    show m + 3 = (m + 2) + 1 from rfl,
    parseMemberList_step 'g' rfl p.g (m + 2) _ (by omega),
    skipWs_cons_of_not_ws '"' _ (by decide),
    show m + 2 = (m + 1) + 1 from rfl,
    parseMemberList_last 'r' rfl p.r (m + 1) _ (by omega)]
  rfl

theorem quoteJSONString_length (s : String) :
    2 ≤ (quoteJSONString s).length := by
  unfold quoteJSONString
  simp

/-- `JSON.parse ∘ JSON.stringify` on the payload object. -/
theorem jsonParse_stringify (p : SecretSantaPayload) :
    jsonParse (jsonStringifyPayload p) =
      some (Json.obj [(['t'], Json.str p.t.data),
        (['d'], Json.str p.d.data), (['g'], Json.str p.g.data),
        (['r'], Json.str p.r.data)]) := by
  have hlen : 5 ≤ (jsonStringifyPayload p).length := by
    unfold jsonStringifyPayload
    have := quoteJSONString_length p.t
    simp [List.length_append]
    omega
  obtain ⟨m, hm⟩ : ∃ m, (jsonStringifyPayload p).length + 1 = m + 6 :=
    ⟨(jsonStringifyPayload p).length - 5, by omega⟩
  unfold jsonParse
  rw [hm, parseValue_stringify]
  rfl

/-- The shape validation recovers the payload from the parsed object. -/
theorem payloadOfJson_eval (p : SecretSantaPayload) :
    payloadOfJson (Json.obj [(['t'], Json.str p.t.data),
      (['d'], Json.str p.d.data), (['g'], Json.str p.g.data),
      (['r'], Json.str p.r.data)]) = some p := rfl

/-! ## Character ranges along the pipeline -/

theorem quoteJSONChar_latin1 (c : Char) (h : c.toNat ≤ 255) :
    ∀ x ∈ quoteJSONChar c, x.toNat ≤ 255 := by
  have hhex : ∀ n, n < 16 → (hexDigitLower n).toNat ≤ 255 := by decide
  unfold quoteJSONChar
  split_ifs with h1 h2 h3 h4 h5 h6 h7 h8
  · decide
  · decide
  · decide
  · decide
  · decide
  · decide
  · decide
  · intro x hx
    rcases (by simpa using hx :
      x = '\\' ∨ x = 'u' ∨ x = '0' ∨ x = '0' ∨
        x = hexDigitLower (c.toNat / 16) ∨
        x = hexDigitLower (c.toNat % 16)) with
      rfl | rfl | rfl | rfl | rfl | rfl
    · decide
    · decide
    · decide
    · decide
    · exact hhex _ (by omega)
    · exact hhex _ (by omega)
  · intro x hx
    rw [List.mem_singleton.mp hx]
    exact h

theorem quoteJSONString_latin1 (s : String)
    (hs : ∀ c ∈ s.data, c.toNat ≤ 255) :
    ∀ c ∈ quoteJSONString s, c.toNat ≤ 255 := by
  unfold quoteJSONString
  intro c hc
  rcases List.mem_cons.mp hc with rfl | hc
  · decide
  · rcases List.mem_append.mp hc with hc | hc
    · obtain ⟨l, hl, hcl⟩ := List.mem_flatten.mp hc
      obtain ⟨x, hx, rfl⟩ := List.mem_map.mp hl
      exact quoteJSONChar_latin1 x (hs x hx) c hcl
    · rw [List.mem_singleton.mp hc]
      decide

theorem jsonStringifyPayload_latin1 (p : SecretSantaPayload)
    (h : ∀ c ∈ p.t.data ++ p.d.data ++ p.g.data ++ p.r.data,
      c.toNat ≤ 255) :
    ∀ c ∈ jsonStringifyPayload p, c.toNat ≤ 255 := by
  have ht : ∀ c ∈ p.t.data, c.toNat ≤ 255 := fun c hc => h c (by simp [hc])
  have hd : ∀ c ∈ p.d.data, c.toNat ≤ 255 := fun c hc => h c (by simp [hc])
  have hg : ∀ c ∈ p.g.data, c.toNat ≤ 255 := fun c hc => h c (by simp [hc])
  have hr : ∀ c ∈ p.r.data, c.toNat ≤ 255 := fun c hc => h c (by simp [hc])
  unfold jsonStringifyPayload
  simp only [List.forall_mem_cons, List.forall_mem_append]
  repeat' apply And.intro
  all_goals
    first
    | decide
    | exact quoteJSONString_latin1 _ (by decide)
    | exact quoteJSONString_latin1 p.t ht
    | exact quoteJSONString_latin1 p.d hd
    | exact quoteJSONString_latin1 p.g hg
    | exact quoteJSONString_latin1 p.r hr

theorem b64EncodeBytes_ascii (bs : List Nat) (h : ∀ b ∈ bs, b < 256) :
    ∀ c ∈ b64EncodeBytes bs, c.toNat < 128 := by
  intro c hc
  rcases List.mem_append.mp hc with hc | hc
  · obtain ⟨x, hx, rfl⟩ := List.mem_map.mp hc
    exact b64Char_ascii x (b64Sexts_lt bs h x hx)
  · rw [b64Padding_eq_pad bs c hc]
    decide

theorem string_data_mk (l : List Char) : (String.mk l).data = l := rfl

/-! ## The decode-encode round trip -/

/-- On Latin-1 payloads the encoder succeeds with the
stringify-reverse-base64-percent token, and the decoder recovers the
payload exactly. -/
theorem decodePayload_encodePayload (p : SecretSantaPayload)
    (h : ∀ c ∈ p.t.data ++ p.d.data ++ p.g.data ++ p.r.data,
      c.toNat ≤ 255) :
    encodePayload p = some (String.mk (encodeURIComponentChars
      (b64EncodeBytes ((jsonStringifyPayload p).reverse.map
        Char.toNat)))) ∧
    decodePayload (String.mk (encodeURIComponentChars
      (b64EncodeBytes ((jsonStringifyPayload p).reverse.map
        Char.toNat)))) = some p := by
  have hlat : ∀ c ∈ (jsonStringifyPayload p).reverse, c.toNat ≤ 255 :=
    fun c hc => jsonStringifyPayload_latin1 p h c (List.mem_reverse.mp hc)
  have hbytes : ∀ b ∈ (jsonStringifyPayload p).reverse.map Char.toNat,
      b < 256 := by
    intro b hb
    obtain ⟨c, hc, rfl⟩ := List.mem_map.mp hb
    have := hlat c hc
    omega
  constructor
  · unfold encodePayload
    rw [btoaChars_eq_some _ hlat]
    rfl
  · unfold decodePayload
    rw [string_data_mk,
      decodeURIComponent_encodeURIComponent _
        (b64EncodeBytes_ascii _ hbytes)]
    dsimp only
    rw [atobChars_btoaChars _ hlat]
    dsimp only
    rw [List.reverse_reverse, jsonParse_stringify]
    dsimp only
    rw [payloadOfJson_eval]

/-! ## Claims about the payload codec -/

/-- C2 (amended: the four fields are restricted to characters with code
points at most 255; a field with a character above 255 makes the `btoa`
step of `encode` throw, see the counterexample, so the round trip can
only hold on this Latin-1 domain).  For every four-field record whose
fields are Latin-1 strings, `decode (encode R)` succeeds and returns a
record equal to R field for field. -/
theorem claim2_roundtrip (p : SecretSantaPayload)
    (h : ∀ c ∈ p.t.data ++ p.d.data ++ p.g.data ++ p.r.data,
      c.toNat ≤ 255) :
    ∃ tok, encodePayload p = some tok ∧ decodePayload tok = some p :=
  ⟨_, (decodePayload_encodePayload p h).1,
    (decodePayload_encodePayload p h).2⟩

/-- Witness for C2: the spec's concrete scenario
{t: "XMAS", d: "", g: "ALICE", r: "BOB"} encodes and decodes back to
itself. -/
theorem claim2_roundtrip_witness :
    (∀ c ∈ ("XMAS" : String).data ++ ("" : String).data ++
      ("ALICE" : String).data ++ ("BOB" : String).data, c.toNat ≤ 255) ∧
    ∃ tok,
      encodePayload ⟨"XMAS", "", "ALICE", "BOB"⟩ = some tok ∧
      decodePayload tok = some ⟨"XMAS", "", "ALICE", "BOB"⟩ :=
  ⟨by decide, claim2_roundtrip ⟨"XMAS", "", "ALICE", "BOB"⟩ (by decide)⟩

/-- Counterexample for C2 as stated: the record whose title is the
(already-trimmed) string "☃" (U+2603) is never decodable back, because
`encode` already fails — `btoa` throws on the non-Latin-1 character —
so `decode (encode R)` cannot return a record equal to R. -/
theorem claim2_counterexample :
    encodePayload ⟨"☃", "", "A", "B"⟩ = none ∧
    (encodePayload ⟨"☃", "", "A", "B"⟩).bind decodePayload ≠
      some ⟨"☃", "", "A", "B"⟩ := by
  refine ⟨by decide, ?_⟩
  rw [show encodePayload ⟨"☃", "", "A", "B"⟩ = none from by decide]
  decide

/-- C4: `decode` is a total function (the model of the try/catch around
the pipeline): a record is returned only when percent-decoding, Base64
decoding and JSON parsing all succeed and the parsed value is an object
whose four properties t, d, g, r are all strings; on the spec's garbage
inputs — the empty string and "not-a-token!!" — it returns the
malformed signal. -/
theorem claim4_decode_malformed :
    (∀ (s : String) (p : SecretSantaPayload), decodePayload s = some p →
      ∃ u b j, decodeURIComponentChars s.data = some u ∧
        atobChars u = some b ∧ jsonParse b.reverse = some j ∧
        payloadOfJson j = some p) ∧
    (∀ (j : Json) (p : SecretSantaPayload), payloadOfJson j = some p →
      ∃ fields, j = Json.obj fields ∧
        jsGetField fields ['t'] = some (Json.str p.t.data) ∧
        jsGetField fields ['d'] = some (Json.str p.d.data) ∧
        jsGetField fields ['g'] = some (Json.str p.g.data) ∧
        jsGetField fields ['r'] = some (Json.str p.r.data)) ∧
    decodePayload "" = none ∧ decodePayload "not-a-token!!" = none := by
  refine ⟨?_, ?_, by decide, by decide⟩
  · intro s p hp
    unfold decodePayload at hp
    rcases hu : decodeURIComponentChars s.data with _ | u
    · simp only [hu] at hp
      exact Option.noConfusion hp
    · simp only [hu] at hp
      rcases hb : atobChars u with _ | b
      · simp only [hb] at hp
        exact Option.noConfusion hp
      · simp only [hb] at hp
        rcases hj : jsonParse b.reverse with _ | j
        · simp only [hj] at hp
          exact Option.noConfusion hp
        · simp only [hj] at hp
          exact ⟨u, b, j, rfl, hb, hj, hp⟩
  · intro j p hp
    cases j with
    | obj fields =>
      unfold payloadOfJson at hp
      dsimp only at hp
      split at hp
      · rename_i tv dv gv rv h1 h2 h3 h4
        rw [Option.some_inj] at hp
        subst hp
        exact ⟨fields, rfl, h1, h2, h3, h4⟩
      · simp at hp
    | null => simp [payloadOfJson] at hp
    | bool b => simp [payloadOfJson] at hp
    | num l => simp [payloadOfJson] at hp
    | str l => simp [payloadOfJson] at hp
    | arr l => simp [payloadOfJson] at hp

/-- Witness for C4: a successful decode of a concrete valid token, with
the pipeline stages recovered by the theorem. -/
theorem claim4_decode_malformed_witness :
    decodePayload
      "fSJCT0IiOiJyIiwiRUNJTEEiOiJnIiwiIjoiZCIsIlNBTVgiOiJ0Ins%3D" =
      some ⟨"XMAS", "", "ALICE", "BOB"⟩ ∧
    ∃ u b j, decodeURIComponentChars
        ("fSJCT0IiOiJyIiwiRUNJTEEiOiJnIiwiIjoiZCIsIlNBTVgiOiJ0Ins%3D"
          : String).data = some u ∧
      atobChars u = some b ∧ jsonParse b.reverse = some j ∧
      payloadOfJson j = some ⟨"XMAS", "", "ALICE", "BOB"⟩ := by
  have hdec : decodePayload
      "fSJCT0IiOiJyIiwiRUNJTEEiOiJnIiwiIjoiZCIsIlNBTVgiOiJ0Ins%3D" =
      some ⟨"XMAS", "", "ALICE", "BOB"⟩ := by decide
  exact ⟨hdec, claim4_decode_malformed.1 _ _ hdec⟩

theorem encodeURIChar_b64_prop : ∀ n, n < 64 →
    ∀ c ∈ encodeURIChar (b64Char n),
      (c.isAlphanum ∨ c = '%') ∧ ¬c = '+' ∧ ¬c = '/' ∧ ¬c = '=' := by
  decide

theorem encodeURIChar_pad_prop :
    ∀ c ∈ encodeURIChar '=',
      (c.isAlphanum ∨ c = '%') ∧ ¬c = '+' ∧ ¬c = '/' ∧ ¬c = '=' := by
  decide

/-- C6: `encode` is exactly the four-step pipeline — serialize with the
fixed keys t, d, g, r in that stable order, reverse the character
sequence, Base64-encode, percent-encode — and the percent-encoding
escapes every URL-reserved character of the Base64 output: a returned
token consists of alphanumeric characters and percent-escapes only, and
in particular never contains a raw '+', '/' or '='. -/
theorem claim6_encode_pipeline :
    (∀ p : SecretSantaPayload,
      encodePayload p = (btoaChars (jsonStringifyPayload p).reverse).map
        (fun b64 => String.mk (encodeURIComponentChars b64))) ∧
    (∀ p : SecretSantaPayload, jsonStringifyPayload p =
      '{' :: quoteJSONString "t" ++ ':' :: quoteJSONString p.t ++
      ',' :: quoteJSONString "d" ++ ':' :: quoteJSONString p.d ++
      ',' :: quoteJSONString "g" ++ ':' :: quoteJSONString p.g ++
      ',' :: quoteJSONString "r" ++ ':' :: quoteJSONString p.r ++ ['}']) ∧
    (∀ (p : SecretSantaPayload) (tok : String),
      encodePayload p = some tok →
      ∀ c ∈ tok.data,
        (c.isAlphanum ∨ c = '%') ∧ ¬c = '+' ∧ ¬c = '/' ∧ ¬c = '=') := by
  refine ⟨fun p => rfl, fun p => rfl, ?_⟩
  intro p tok htok c hc
  unfold encodePayload at htok
  rcases hb : btoaChars (jsonStringifyPayload p).reverse with _ | e
  · rw [hb] at htok
    simp at htok
  · rw [hb, Option.map_some', Option.some_inj] at htok
    unfold btoaChars at hb
    split at hb
    · rename_i hall
      rw [Option.some_inj] at hb
      subst hb
      subst htok
      rw [string_data_mk] at hc
      obtain ⟨l, hl, hcl⟩ := List.mem_flatten.mp hc
      obtain ⟨e, he, rfl⟩ := List.mem_map.mp hl
      rcases List.mem_append.mp he with he | he
      · obtain ⟨x, hx, rfl⟩ := List.mem_map.mp he
        have hx64 : x < 64 := by
          apply b64Sexts_lt _ _ x hx
          intro b hbb
          obtain ⟨ch, hch, rfl⟩ := List.mem_map.mp hbb
          have := List.all_eq_true.mp hall ch hch
          have := of_decide_eq_true this
          omega
        exact encodeURIChar_b64_prop x hx64 c hcl
      · rw [b64Padding_eq_pad _ _ he] at hcl
        exact encodeURIChar_pad_prop c hcl
    · simp at hb

/-- Witness for C6: the concrete token for the XMAS payload contains
only alphanumeric characters and percent-escapes. -/
theorem claim6_encode_pipeline_witness :
    encodePayload ⟨"XMAS", "", "ALICE", "BOB"⟩ =
      some "fSJCT0IiOiJyIiwiRUNJTEEiOiJnIiwiIjoiZCIsIlNBTVgiOiJ0Ins%3D" ∧
    ∀ c ∈ ("fSJCT0IiOiJyIiwiRUNJTEEiOiJnIiwiIjoiZCIsIlNBTVgiOiJ0Ins%3D"
        : String).data,
      (c.isAlphanum ∨ c = '%') ∧ ¬c = '+' ∧ ¬c = '/' ∧ ¬c = '=' := by
  have henc : encodePayload ⟨"XMAS", "", "ALICE", "BOB"⟩ =
      some "fSJCT0IiOiJyIiwiRUNJTEEiOiJnIiwiIjoiZCIsIlNBTVgiOiJ0Ins%3D" :=
    by decide
  exact ⟨henc, claim6_encode_pipeline.2.2 _ _ henc⟩

/-- C10: `encode` is not total — on the record whose description holds
"€" (U+20AC > 255) the `btoa` step throws (modelled `none`) — while on
every record whose four fields contain only code points at most 255 it
succeeds and returns a token. -/
theorem claim10_encode_latin1_domain :
    (∀ p : SecretSantaPayload,
      (∀ c ∈ p.t.data ++ p.d.data ++ p.g.data ++ p.r.data,
        c.toNat ≤ 255) →
      ∃ tok, encodePayload p = some tok) ∧
    encodePayload ⟨"A", "€", "G", "R"⟩ = none := by
  refine ⟨?_, by decide⟩
  intro p h
  exact ⟨_, (decodePayload_encodePayload p h).1⟩

/-- Witness for C10: the Latin-1 payload of the spec's scenario encodes
successfully. -/
theorem claim10_encode_latin1_domain_witness :
    (∀ c ∈ ("GIFTS" : String).data ++ ("annual" : String).data ++
      ("CAROL" : String).data ++ ("ALICE" : String).data,
      c.toNat ≤ 255) ∧
    ∃ tok, encodePayload ⟨"GIFTS", "annual", "CAROL", "ALICE"⟩ =
      some tok :=
  ⟨by decide, claim10_encode_latin1_domain.1
    ⟨"GIFTS", "annual", "CAROL", "ALICE"⟩ (by decide)⟩

end Santa
